import Mathlib

/-! Comment handler of infracost (internal/comment/handler.go).

A shallow embedding of the platform-independent comment handler. The platform
is an arbitrary deterministic state machine over a state type `σ`; every
handler function takes the platform state and returns its Go result, the state
the platform is left in, and the list of `PlatformHandler` method calls it made,
in order. Logging (logrus, color) and the `context.Context` argument have no
effect on results or on platform calls and are left out.
-/

namespace Infracost

/-! ## Data model -/

/-- Go `error` values: `plain` is an error carrying only a message (for example
`fmt.Errorf` without `%w`, or any error made by a platform client); `wrapping`
is the result of `fmt.Errorf` with a `%w` verb, which keeps its cause. A nil
`error` is `none : Option GoError`. -/
inductive GoError where
  | plain (msg : String)
  | wrapping (msg : String) (cause : GoError)
deriving DecidableEq, Repr

/-- The `Error()` method: the message of an error. -/
def GoError.Error : GoError → String
  | .plain msg => msg
  | .wrapping msg _ => msg

/-- The `errors.Unwrap` view: the cause an error wraps, if any. -/
def GoError.Unwrap : GoError → Option GoError
  | .plain _ => none
  | .wrapping _ cause => some cause

/-- The method set of the Go interface `Comment`, for comments represented by
values of `κ`. -/
class Comment (κ : Type) where
  /-- Comment text. -/
  Body : κ → String
  /-- Reference of the comment (only logged). -/
  Ref : κ → String
  /-- True if the receiver should be sorted before the argument. -/
  Less : κ → κ → Bool
  /-- True if the comment is hidden or minimized. -/
  IsHidden : κ → Bool

/-- The method set of the Go interface `PlatformHandler`. The five `Call*`
methods act on the platform: they take its state and return their Go result
with the next state. A `(value, error)` result is an `Except`: the code never
reads the value when the error is non-nil. -/
structure PlatformHandler (σ κ : Type) where
  CallFindMatchingComments : σ → String → Except GoError (List κ) × σ
  CallCreateComment : σ → String → Except GoError κ × σ
  CallUpdateComment : σ → κ → String → Option GoError × σ
  CallDeleteComment : σ → κ → Option GoError × σ
  CallHideComment : σ → κ → Option GoError × σ
  AddMarkdownTag : String → String → String

/-- The struct `CommentHandler`. -/
structure CommentHandler (σ κ : Type) where
  PlatformHandler : PlatformHandler σ κ
  Tag : String

/-- One call of a `PlatformHandler` method, with its arguments. -/
inductive Call (κ : Type) where
  | addMarkdownTag (s tag : String)
  | findMatching (tag : String)
  | create (body : String)
  | update (comment : κ) (body : String)
  | delete (comment : κ)
  | hide (comment : κ)
deriving DecidableEq, Repr

/-- Is the call a `CallFindMatchingComments`? -/
def Call.isFind {κ : Type} : Call κ → Bool
  | .findMatching _ => true
  | _ => false

/-- Is the call a `CallCreateComment`? -/
def Call.isCreate {κ : Type} : Call κ → Bool
  | .create _ => true
  | _ => false

/-- Is the call a `CallUpdateComment`? -/
def Call.isUpdate {κ : Type} : Call κ → Bool
  | .update _ _ => true
  | _ => false

/-- Is the call a `CallDeleteComment`? -/
def Call.isDelete {κ : Type} : Call κ → Bool
  | .delete _ => true
  | _ => false

/-- Is the call a `CallHideComment`? -/
def Call.isHide {κ : Type} : Call κ → Bool
  | .hide _ => true
  | _ => false

/-- Is the call one of the five `Call*` methods, which reach the platform
(everything but `AddMarkdownTag`)? -/
def Call.isCapability {κ : Type} : Call κ → Bool
  | .addMarkdownTag _ _ => false
  | _ => true

/-- What a handler function leaves behind: its Go return value, the state of
the platform afterwards, and the platform calls it made, oldest first. -/
structure Outcome (σ κ α : Type) where
  ret : α
  state : σ
  calls : List (Call κ)

/-- The type of `sort.Slice` specialised to a slice of comments and a `less`
on elements. `sort.Slice` belongs to the Go standard library; the handler takes
it as a parameter. -/
abbrev SliceSort (κ : Type) := (κ → κ → Bool) → List κ → List κ

/-! ## The handler -/

/-- The variable `defaultTag`. -/
def defaultTag : String := "infracost-comment"

/-- The function `NewCommentHandler`. -/
def NewCommentHandler {σ κ : Type} (platformHandler : PlatformHandler σ κ) (tag : String) :
    CommentHandler σ κ :=
  { PlatformHandler := platformHandler
    Tag := if tag = "" then defaultTag else tag }

/-- The method `newPlatformError`: nil stays nil, any other error is wrapped
(`%w`) between the two fixed lines. -/
def newPlatformError (err : Option GoError) : Option GoError :=
  match err with
  | none => none
  | some e =>
    some (.wrapping
      ("The pull request comment was generated successfully but could not be posted:"
        ++ "\n" ++ e.Error ++ "\n\n"
        ++ "See https://infracost.io/docs/troubleshooting/#5-posting-comments for help.") e)

section Handler

variable {σ κ : Type} [Comment κ]

/-- The method `matchingComments`. -/
def matchingComments (h : CommentHandler σ κ) (s : σ) :
    Outcome σ κ (List κ × Option GoError) :=
  match h.PlatformHandler.CallFindMatchingComments s h.Tag with
  | (.error err, s1) => ⟨([], newPlatformError (some err)), s1, [.findMatching h.Tag]⟩
  | (.ok matching, s1) => ⟨(matching, none), s1, [.findMatching h.Tag]⟩

/-- The method `LatestMatchingComment`: the matches are sorted by `Less`, then
the last one is returned, or nil when there is none. -/
def LatestMatchingComment (sortSlice : SliceSort κ) (h : CommentHandler σ κ) (s : σ) :
    Outcome σ κ (Option κ × Option GoError) :=
  let r := matchingComments h s
  match r.ret with
  | (_, some err) => ⟨(none, some err), r.state, r.calls⟩
  | (matching, none) =>
    let sorted := sortSlice Comment.Less matching
    if sorted.length = 0 then ⟨(none, none), r.state, r.calls⟩
    else ⟨(sorted.getLast?, none), r.state, r.calls⟩

/-- The method `UpdateComment`. -/
def UpdateComment (sortSlice : SliceSort κ) (h : CommentHandler σ κ) (skipNoDiff : Bool)
    (body : String) (s : σ) : Outcome σ κ (Bool × Option GoError) :=
  let bodyWithTag := h.PlatformHandler.AddMarkdownTag body h.Tag
  let tagCall : Call κ := .addMarkdownTag body h.Tag
  let r := LatestMatchingComment sortSlice h s
  match r.ret with
  | (_, some err) => ⟨(false, some err), r.state, tagCall :: r.calls⟩
  | (some latestMatchingComment, none) =>
    if Comment.Body latestMatchingComment = bodyWithTag then
      ⟨(false, none), r.state, tagCall :: r.calls⟩
    else
      match h.PlatformHandler.CallUpdateComment r.state latestMatchingComment bodyWithTag with
      | (some err, s2) =>
        ⟨(false, newPlatformError (some err)), s2,
          tagCall :: r.calls ++ [.update latestMatchingComment bodyWithTag]⟩
      | (none, s2) =>
        ⟨(true, none), s2, tagCall :: r.calls ++ [.update latestMatchingComment bodyWithTag]⟩
  | (none, none) =>
    if skipNoDiff then ⟨(false, none), r.state, tagCall :: r.calls⟩
    else
      match h.PlatformHandler.CallCreateComment r.state bodyWithTag with
      | (.error err, s2) =>
        ⟨(false, newPlatformError (some err)), s2, tagCall :: r.calls ++ [.create bodyWithTag]⟩
      | (.ok _, s2) => ⟨(true, none), s2, tagCall :: r.calls ++ [.create bodyWithTag]⟩

/-- The method `NewComment`. -/
def NewComment (h : CommentHandler σ κ) (body : String) (s : σ) :
    Outcome σ κ (Option GoError) :=
  let bodyWithTag := h.PlatformHandler.AddMarkdownTag body h.Tag
  match h.PlatformHandler.CallCreateComment s bodyWithTag with
  | (.error err, s1) =>
    ⟨newPlatformError (some err), s1, [.addMarkdownTag body h.Tag, .create bodyWithTag]⟩
  | (.ok _, s1) => ⟨none, s1, [.addMarkdownTag body h.Tag, .create bodyWithTag]⟩

/-- The loop shared by `hideComments` and `deleteComments`:
`for _, comment := range comments`, calling the platform on each comment and
returning the wrapped error of the first call that fails. -/
def rangeComments (call : σ → κ → Option GoError × σ) (mk : κ → Call κ) :
    List κ → σ → Outcome σ κ (Option GoError)
  | [], s => ⟨none, s, []⟩
  | comment :: rest, s =>
    match call s comment with
    | (some err, s1) => ⟨newPlatformError (some err), s1, [mk comment]⟩
    | (none, s1) =>
      let r := rangeComments call mk rest s1
      ⟨r.ret, r.state, mk comment :: r.calls⟩

/-- The method `hideComments`: the comments that are not hidden are collected
in order, then hidden one by one. -/
def hideComments (h : CommentHandler σ κ) (comments : List κ) (s : σ) :
    Outcome σ κ (Option GoError) :=
  let visibleComments := comments.filter (fun comment => !Comment.IsHidden comment)
  rangeComments h.PlatformHandler.CallHideComment Call.hide visibleComments s

/-- The method `deleteComments`. -/
def deleteComments (h : CommentHandler σ κ) (comments : List κ) (s : σ) :
    Outcome σ κ (Option GoError) :=
  rangeComments h.PlatformHandler.CallDeleteComment Call.delete comments s

/-- The method `HideAndNewComment`. -/
def HideAndNewComment (h : CommentHandler σ κ) (skipNoDiff : Bool) (body : String) (s : σ) :
    Outcome σ κ (Bool × Option GoError) :=
  let r := matchingComments h s
  match r.ret with
  | (_, some err) => ⟨(false, some err), r.state, r.calls⟩
  | (matching, none) =>
    if matching.length = 0 && skipNoDiff then ⟨(false, none), r.state, r.calls⟩
    else
      let r1 := hideComments h matching r.state
      match r1.ret with
      | some err => ⟨(false, some err), r1.state, r.calls ++ r1.calls⟩
      | none =>
        let r2 := NewComment h body r1.state
        match r2.ret with
        | some err => ⟨(false, some err), r2.state, r.calls ++ r1.calls ++ r2.calls⟩
        | none => ⟨(true, none), r2.state, r.calls ++ r1.calls ++ r2.calls⟩

/-- The method `DeleteAndNewComment`. -/
def DeleteAndNewComment (h : CommentHandler σ κ) (skipNoDiff : Bool) (body : String) (s : σ) :
    Outcome σ κ (Bool × Option GoError) :=
  let r := matchingComments h s
  match r.ret with
  | (_, some err) => ⟨(false, some err), r.state, r.calls⟩
  | (matching, none) =>
    if matching.length = 0 && skipNoDiff then ⟨(false, none), r.state, r.calls⟩
    else
      let r1 := deleteComments h matching r.state
      match r1.ret with
      | some err => ⟨(false, some err), r1.state, r.calls ++ r1.calls⟩
      | none =>
        let r2 := NewComment h body r1.state
        match r2.ret with
        | some err => ⟨(false, some err), r2.state, r.calls ++ r1.calls ++ r2.calls⟩
        | none => ⟨(true, none), r2.state, r.calls ++ r1.calls ++ r2.calls⟩

/-- The method `CommentWithBehavior`: a switch on the behavior string. -/
def CommentWithBehavior (sortSlice : SliceSort κ) (h : CommentHandler σ κ) (skipNoDiff : Bool)
    (behavior body : String) (s : σ) : Outcome σ κ (Bool × Option GoError) :=
  if behavior = "update" then UpdateComment sortSlice h skipNoDiff body s
  else if behavior = "new" then
    let r := NewComment h body s
    match r.ret with
    | none => ⟨(true, none), r.state, r.calls⟩
    | some err => ⟨(false, some err), r.state, r.calls⟩
  else if behavior = "hide-and-new" then HideAndNewComment h skipNoDiff body s
  else if behavior = "delete-and-new" then DeleteAndNewComment h skipNoDiff body s
  else ⟨(false, some (.plain ("Unable to perform unknown behavior: " ++ behavior))), s, []⟩

end Handler

/-! ## Vocabulary of the statements -/

section Vocabulary

variable {σ κ : Type}

/-- The state the platform is in after `call` has been run on the comments of
`cs` one after the other, starting in state `s`. -/
def stateAfter (call : σ → κ → Option GoError × σ) (s : σ) (cs : List κ) : σ :=
  cs.foldl (fun st c => (call st c).2) s

/-- The relation `less` is a strict total order on the elements of `l`:
irreflexive, transitive, and any two distinct elements are comparable. -/
def StrictTotalOn (less : κ → κ → Bool) (l : List κ) : Prop :=
  (∀ x ∈ l, less x x = false) ∧
  (∀ x ∈ l, ∀ y ∈ l, ∀ z ∈ l, less x y = true → less y z = true → less x z = true) ∧
  (∀ x ∈ l, ∀ y ∈ l, x ≠ y → less x y = true ∨ less y x = true)

/-- The part of the contract of `sort.Slice` the handler relies on: the result
is a rearrangement of the input, and when `less` is a strict total order on the
elements, no element of the result is `less` than an earlier one. -/
def SortsSlices (sortSlice : SliceSort κ) : Prop :=
  ∀ (less : κ → κ → Bool) (l : List κ), (sortSlice less l).Perm l ∧
    (StrictTotalOn less l → (sortSlice less l).Pairwise (fun a b => less b a = false))

/-- The comment `m` is the greatest element of `l`: every other element of `l`
is `less` than it. -/
def IsGreatest (less : κ → κ → Bool) (l : List κ) (m : κ) : Prop :=
  m ∈ l ∧ ∀ x ∈ l, x ≠ m → less x m = true

/-- The answer of the platform to one call made in state `s`: the error it
returns (nil on success) and the state it moves to. `AddMarkdownTag` does not
reach the platform and cannot fail. -/
def PlatformHandler.respond (p : PlatformHandler σ κ) (s : σ) : Call κ → Option GoError × σ
  | .addMarkdownTag _ _ => (none, s)
  | .findMatching tag =>
    match p.CallFindMatchingComments s tag with
    | (.ok _, s1) => (none, s1)
    | (.error e, s1) => (some e, s1)
  | .create body =>
    match p.CallCreateComment s body with
    | (.ok _, s1) => (none, s1)
    | (.error e, s1) => (some e, s1)
  | .update c body => p.CallUpdateComment s c body
  | .delete c => p.CallDeleteComment s c
  | .hide c => p.CallHideComment s c

/-- The state the platform is in after answering the given calls, one after the
other, starting in state `s`. -/
def stateAfterCalls (p : PlatformHandler σ κ) (s : σ) (calls : List (Call κ)) : σ :=
  calls.foldl (fun st c => (p.respond st c).2) s

/-- The errors the platform answers to the given calls, one after the other,
starting in state `s`. -/
def answers (p : PlatformHandler σ κ) : σ → List (Call κ) → List (Option GoError)
  | _, [] => []
  | s, c :: cs => (p.respond s c).1 :: answers p (p.respond s c).2 cs

/-- Every answer but the last is nil, and `err` is `newPlatformError` of the
last answer (nil when there is no answer). -/
def FailsOnlyLast (err : Option GoError) : List (Option GoError) → Prop
  | [] => err = none
  | [a] => err = newPlatformError a
  | a :: b :: rest => a = none ∧ FailsOnlyLast err (b :: rest)

/-- A run from state `s` that made `calls`, ended in `state` and returned
`err` is fail-fast: `state` is where the calls leave the platform, no call but
the last was answered with an error, and `err` is the last answer, wrapped. -/
def FailFast (p : PlatformHandler σ κ) (s : σ) (calls : List (Call κ)) (state : σ)
    (err : Option GoError) : Prop :=
  state = stateAfterCalls p s calls ∧ FailsOnlyLast err (answers p s calls)

/-- A create or update call carries the given body; other calls are free. -/
def Call.carries {κ : Type} (body : String) : Call κ → Prop
  | .create b => b = body
  | .update _ b => b = body
  | _ => True

/-- The two kinds of invocation, by calls and result: a quiet one returns
`posted = false`, makes no create or update call, makes no delete or hide call
either when it returns no error, and ends, if it made calls, on a `Call*` call;
a posting one ends on a create or update call and returns either `(true, nil)`
or `posted = false` with an error. -/
def Summary {κ : Type} (calls : List (Call κ)) (ret : Bool × Option GoError) : Prop :=
  (ret.1 = false ∧ (∀ c ∈ calls, c.isCreate = false ∧ c.isUpdate = false) ∧
      (ret.2 = none → ∀ c ∈ calls, c.isDelete = false ∧ c.isHide = false) ∧
      ∀ d, calls.getLast? = some d → d.isCapability = true) ∨
    ∃ pre c, calls = pre ++ [c] ∧ (c.isCreate = true ∨ c.isUpdate = true) ∧
      (ret = (true, none) ∨ (ret.1 = false ∧ ret.2 ≠ none))

end Vocabulary

/-! ## A concrete platform

An in-memory platform on which the statements below are instantiated. -/

/-- A comment of the in-memory platform, ordered by creation stamp. -/
structure PRComment where
  body : String
  ref : String
  createdAt : Nat
  hidden : Bool
deriving DecidableEq, Repr

instance : Comment PRComment where
  Body c := c.body
  Ref c := c.ref
  Less a b := decide (a.createdAt < b.createdAt)
  IsHidden c := c.hidden

/-- State of the in-memory platform: the comments carrying the tag, the refs of
the comments on which update, delete and hide fail, and whether find and create
fail. -/
structure Mem where
  comments : List PRComment
  broken : List String
  findFails : Bool
  createFails : Bool
deriving DecidableEq, Repr

/-- The in-memory platform. A created comment gets a stamp above all others. -/
def memPlatform : PlatformHandler Mem PRComment where
  CallFindMatchingComments s _ :=
    if s.findFails then (.error (.plain "find failed"), s) else (.ok s.comments, s)
  CallCreateComment s body :=
    if s.createFails then (.error (.plain "create failed"), s)
    else
      let c : PRComment :=
        ⟨body, "new", (s.comments.foldl (fun m x => max m x.createdAt) 0) + 1, false⟩
      (.ok c, { s with comments := s.comments ++ [c] })
  CallUpdateComment s c body :=
    if c.ref ∈ s.broken then (some (.plain "update failed"), s)
    else
      (none, { s with comments :=
        s.comments.map (fun x => if x.ref = c.ref then { x with body := body } else x) })
  CallDeleteComment s c :=
    if c.ref ∈ s.broken then (some (.plain "delete failed"), s)
    else (none, { s with comments := s.comments.filter (fun x => x.ref ≠ c.ref) })
  CallHideComment s c :=
    if c.ref ∈ s.broken then (some (.plain "hide not supported"), s)
    else
      (none, { s with comments :=
        s.comments.map (fun x => if x.ref = c.ref then { x with hidden := true } else x) })
  AddMarkdownTag s tag := "<!--" ++ tag ++ "-->" ++ s

/-- Insertion of `x` before the first element it is `less` than. -/
def orderedInsertSlice {κ : Type} (less : κ → κ → Bool) (x : κ) : List κ → List κ
  | [] => [x]
  | y :: ys => if less x y then x :: y :: ys else y :: orderedInsertSlice less x ys

/-- Insertion sort, a sorting routine with the signature of `sort.Slice`. It
returns what `sort.Slice` returns whenever `less` is a strict total order on
the elements, the sorted slice; for any other `less` the two may differ, and
`insertionSortLessFunc` below is the routine Go runs. -/
def insertionSortSlice {κ : Type} : SliceSort κ
  | _, [] => []
  | less, x :: xs => orderedInsertSlice less x (insertionSortSlice less xs)

/-- The inner loop of Go's insertion sort,
`for j := i; j > a && data.Less(j, j-1); j-- { data.Swap(j, j-1) }`, on the
elements to the left of `x`, the nearest first: `x` is swapped to the left of
every neighbour it is `less` than and stops at the first one it is not `less`
than. The result lists the elements from the right end again. -/
def insertLeft {κ : Type} (less : κ → κ → Bool) (x : κ) : List κ → List κ
  | [] => [x]
  | y :: ys => if less x y then y :: insertLeft less x ys else x :: y :: ys

/-- Go's insertion sort (`insertionSortLessFunc` of package sort), the routine
`sort.Slice` runs on a short slice (at most 12 elements since Go 1.19, at most
6 before): the elements are taken from left to right and each is moved left by
`insertLeft`. -/
def insertionSortLessFunc {κ : Type} : SliceSort κ :=
  fun less l => (l.foldl (fun sortedRev x => insertLeft less x sortedRev) []).reverse

/-- The handler of the in-memory platform with tag "ic". -/
def icHandler : CommentHandler Mem PRComment := ⟨memPlatform, "ic"⟩

/-- An existing comment carrying the tag "ic". -/
def costComment : PRComment := ⟨"<!--ic-->Cost: $10", "c1", 1, false⟩

/-- An older comment carrying the tag "ic". -/
def olderComment : PRComment := ⟨"<!--ic-->Cost: $5", "c0", 0, false⟩

/-- A comment carrying the tag "ic" that is already hidden. -/
def hiddenComment : PRComment := ⟨"<!--ic-->Cost: $1", "h0", 2, true⟩

/-- An in-memory platform holding the given comments, on which nothing fails. -/
def memOf (comments : List PRComment) : Mem := ⟨comments, [], false, false⟩

/-- An in-memory platform holding the given comments, on which update, delete
and hide fail on the comment "c0". -/
def memBroken (comments : List PRComment) : Mem := ⟨comments, ["c0"], false, false⟩

/-! ## A platform that keeps the comments in a list -/

/-- A comment of the list platform: its position in the list, by which comments
are ordered, and its body. -/
structure ListedComment where
  index : Nat
  body : String
deriving DecidableEq, Repr

instance : Comment ListedComment where
  Body c := c.body
  Ref c := c.body
  Less a b := decide (a.index < b.index)
  IsHidden _ := false

/-- The comments of a list of bodies, numbered from `i` on. -/
def listedFrom (i : Nat) : List String → List ListedComment
  | [] => []
  | b :: bs => ⟨i, b⟩ :: listedFrom (i + 1) bs

/-- Modelled from the spec: the implementations of `PlatformHandler` are not
among the sources. A platform without failures whose state is the list of the
comment bodies, oldest first: the search returns the current list, a create
appends a comment with the given body, which is greater under `Less` than all
others, an update replaces the body of its target and leaves the order
unchanged. Tagging is any function `addTag`. -/
def listPlatform (addTag : String → String → String) :
    PlatformHandler (List String) ListedComment where
  CallFindMatchingComments s _ := (.ok (listedFrom 0 s), s)
  CallCreateComment s body := (.ok ⟨s.length, body⟩, s ++ [body])
  CallUpdateComment s c body := (none, s.set c.index body)
  CallDeleteComment s c := (none, s.eraseIdx c.index)
  CallHideComment s _ := (none, s)
  AddMarkdownTag := addTag

/-- The handler of the list platform with the given tagging function and tag. -/
def listHandler (addTag : String → String → String) (tag : String) :
    CommentHandler (List String) ListedComment :=
  ⟨listPlatform addTag, tag⟩

/-! ## A platform whose comments are not ordered -/

/-- A comment whose `Less` answers true for every pair, itself included: it is
neither irreflexive nor asymmetric, so it orders nothing. -/
structure LooseComment where
  body : String
deriving DecidableEq, Repr

instance : Comment LooseComment where
  Body c := c.body
  Ref c := c.body
  Less _ _ := true
  IsHidden _ := false

/-- A platform without failures that keeps such comments in a list. -/
def loosePlatform : PlatformHandler (List LooseComment) LooseComment where
  CallFindMatchingComments s _ := (.ok s, s)
  CallCreateComment s body := (.ok ⟨body⟩, s ++ [⟨body⟩])
  CallUpdateComment s c body := (none, s.map (fun x => if x = c then ⟨body⟩ else x))
  CallDeleteComment s c := (none, s.filter (fun x => x ≠ c))
  CallHideComment s _ := (none, s)
  AddMarkdownTag s tag := "<!--" ++ tag ++ "-->" ++ s

/-! ## IBM instance plans (internal/resources/ibm/is_instance.go) -/

namespace Ibm

/-- The type `ArchType`, an `int64`. -/
def ArchType : Type := Int

instance : DecidableEq ArchType := inferInstanceAs (DecidableEq Int)

/-- The constant `x86`, `iota` at 0. -/
def x86 : ArchType := (0 : Int)

/-- The constant `s390x`, `iota` at 1. -/
def s390x : ArchType := (1 : Int)

/-- The method `toPlanName`: a switch on the receiver. -/
def ArchType.toPlanName (s : ArchType) : String :=
  if s = x86 then "gen2-instance"
  else if s = s390x then "gen2-zvsi-instance"
  else "unknown"

/-- The function `parseArch`: a switch on the architecture string. -/
def parseArch (arch : String) : ArchType :=
  if arch = "amd64" then x86
  else if arch = "s390x" then s390x
  else ((-1 : Int) : ArchType)

end Ibm

/-! ## Lemmas -/

section Lemmas

variable {σ κ : Type}

theorem matchingComments_ok (h : CommentHandler σ κ) (s s1 : σ) (cs : List κ)
    (hfind : h.PlatformHandler.CallFindMatchingComments s h.Tag = (.ok cs, s1)) :
    matchingComments h s = ⟨(cs, none), s1, [.findMatching h.Tag]⟩ := by
  simp [matchingComments, hfind]

theorem LatestMatchingComment_ok [Comment κ] (sortSlice : SliceSort κ) (h : CommentHandler σ κ) (s s1 : σ)
    (cs : List κ)
    (hfind : h.PlatformHandler.CallFindMatchingComments s h.Tag = (.ok cs, s1)) :
    LatestMatchingComment sortSlice h s =
      ⟨((sortSlice Comment.Less cs).getLast?, none), s1, [.findMatching h.Tag]⟩ := by
  simp only [LatestMatchingComment, matchingComments_ok h s s1 cs hfind]
  split
  · next hlen => simp [List.length_eq_zero.mp hlen]
  · rfl

theorem StrictTotalOn.mono {less : κ → κ → Bool} {l l2 : List κ}
    (hsub : ∀ a ∈ l2, a ∈ l) (hord : StrictTotalOn less l) : StrictTotalOn less l2 :=
  ⟨fun x hx => hord.1 x (hsub x hx),
   fun x hx y hy z hz => hord.2.1 x (hsub x hx) y (hsub y hy) z (hsub z hz),
   fun x hx y hy => hord.2.2 x (hsub x hx) y (hsub y hy)⟩

/-- A strict total order never holds both ways. -/
theorem StrictTotalOn.asymm {less : κ → κ → Bool} {l : List κ} (hord : StrictTotalOn less l)
    {x y : κ} (hx : x ∈ l) (hy : y ∈ l) (hxy : less x y = true) : less y x = false := by
  cases hyx : less y x with
  | false => rfl
  | true =>
    have hxx := hord.2.1 x hx y hy x hx hxy hyx
    rw [hord.1 x hx] at hxx
    exact absurd hxx (by decide)

/-- A greatest element under a strict total order is the only one. -/
theorem IsGreatest.unique {less : κ → κ → Bool} {l : List κ} (hord : StrictTotalOn less l)
    {m m2 : κ} (hm : IsGreatest less l m) (hm2 : IsGreatest less l m2) : m2 = m := by
  by_contra hne
  have h1 : less m2 m = true := hm.2 m2 hm2.1 hne
  have h2 : less m m2 = true := hm2.2 m hm.1 (fun e => hne e.symm)
  have h3 := hord.asymm hm2.1 hm.1 h1
  rw [h2] at h3
  exact absurd h3 (by decide)

/-- The last element of an inversion-free rearrangement of `l` is the greatest
element of `l`. -/
theorem getLast_isGreatest {less : κ → κ → Bool} {l o : List κ} (hord : StrictTotalOn less l)
    (hperm : o.Perm l) (hsorted : o.Pairwise (fun a b => less b a = false)) (hne : o ≠ []) :
    IsGreatest less l (o.getLast hne) := by
  have hmem : o.getLast hne ∈ l := hperm.mem_iff.mp (List.getLast_mem hne)
  refine ⟨hmem, fun x hx hxm => ?_⟩
  have hsplit : o.dropLast ++ [o.getLast hne] = o := List.dropLast_append_getLast hne
  rw [← hsplit, List.pairwise_append] at hsorted
  have hxo : x ∈ o.dropLast ++ [o.getLast hne] := by
    rw [hsplit]
    exact hperm.mem_iff.mpr hx
  rcases List.mem_append.mp hxo with hxd | hxl
  · have hno : less (o.getLast hne) x = false :=
      hsorted.2.2 x hxd (o.getLast hne) (List.mem_singleton.mpr rfl)
    rcases hord.2.2 x hx (o.getLast hne) hmem hxm with hlt | hgt
    · exact hlt
    · rw [hno] at hgt
      exact absurd hgt (by decide)
  · exact absurd (List.mem_singleton.mp hxl) hxm

theorem mem_orderedInsertSlice (less : κ → κ → Bool) (x a : κ) (l : List κ) :
    a ∈ orderedInsertSlice less x l ↔ a = x ∨ a ∈ l := by
  induction l with
  | nil => simp [orderedInsertSlice]
  | cons y ys ih =>
    simp only [orderedInsertSlice]
    split
    · simp
    · simp [ih]
      tauto

theorem perm_orderedInsertSlice (less : κ → κ → Bool) (x : κ) (l : List κ) :
    (orderedInsertSlice less x l).Perm (x :: l) := by
  induction l with
  | nil => simp [orderedInsertSlice]
  | cons y ys ih =>
    simp only [orderedInsertSlice]
    split
    · exact List.Perm.refl _
    · exact (List.Perm.cons y ih).trans (List.Perm.swap x y ys)

theorem perm_insertionSortSlice (less : κ → κ → Bool) (l : List κ) :
    (insertionSortSlice less l).Perm l := by
  induction l with
  | nil => simp [insertionSortSlice]
  | cons x xs ih =>
    simp only [insertionSortSlice]
    exact (perm_orderedInsertSlice less x _).trans (List.Perm.cons x ih)

theorem pairwise_orderedInsertSlice (less : κ → κ → Bool) (x : κ) (l : List κ)
    (hord : StrictTotalOn less (x :: l)) (hl : l.Pairwise (fun a b => less b a = false)) :
    (orderedInsertSlice less x l).Pairwise (fun a b => less b a = false) := by
  induction l with
  | nil => simp [orderedInsertSlice]
  | cons y ys ih =>
    have hx : x ∈ x :: y :: ys := by simp
    have hy : y ∈ x :: y :: ys := by simp
    rw [List.pairwise_cons] at hl
    simp only [orderedInsertSlice]
    split
    · next hxy =>
      refine List.Pairwise.cons (fun z hz => ?_) (List.Pairwise.cons hl.1 hl.2)
      have hzl : z ∈ x :: y :: ys := List.mem_cons_of_mem x hz
      rcases List.mem_cons.mp hz with rfl | hzys
      · exact hord.asymm hx hy hxy
      · by_cases hzy : z = y
        · subst hzy
          exact hord.asymm hx hy hxy
        · have hyz : less y z = true := by
            rcases hord.2.2 y hy z hzl (fun e => hzy e.symm) with hlt | hgt
            · exact hlt
            · rw [hl.1 z hzys] at hgt
              exact absurd hgt (by decide)
          exact hord.asymm hx hzl (hord.2.1 x hx y hy z hzl hxy hyz)
    · next hxy =>
      have hsub : ∀ a ∈ x :: ys, a ∈ x :: y :: ys := by
        intro a ha
        rcases List.mem_cons.mp ha with rfl | ha2
        · simp
        · simp [ha2]
      refine List.Pairwise.cons (fun z hz => ?_) (ih (hord.mono hsub) hl.2)
      rcases (mem_orderedInsertSlice less x z ys).mp hz with rfl | hzys
      · simpa using hxy
      · exact hl.1 z hzys

theorem pairwise_insertionSortSlice (less : κ → κ → Bool) (l : List κ)
    (hord : StrictTotalOn less l) :
    (insertionSortSlice less l).Pairwise (fun a b => less b a = false) := by
  induction l with
  | nil => simp [insertionSortSlice]
  | cons x xs ih =>
    simp only [insertionSortSlice]
    have hsub : ∀ a ∈ x :: insertionSortSlice less xs, a ∈ x :: xs := by
      intro a ha
      rcases List.mem_cons.mp ha with rfl | ha2
      · simp
      · exact List.mem_cons_of_mem _ ((perm_insertionSortSlice less xs).mem_iff.mp ha2)
    exact pairwise_orderedInsertSlice less x _ (hord.mono hsub)
      (ih (hord.mono (fun a ha => List.mem_cons_of_mem x ha)))

theorem perm_insertLeft (less : κ → κ → Bool) (x : κ) (l : List κ) :
    (insertLeft less x l).Perm (x :: l) := by
  induction l with
  | nil => simp [insertLeft]
  | cons y ys ih =>
    simp only [insertLeft]
    split
    · exact (List.Perm.cons y ih).trans (List.Perm.swap x y ys)
    · exact List.Perm.refl _

theorem perm_foldl_insertLeft (less : κ → κ → Bool) (l : List κ) :
    ∀ acc : List κ,
      (l.foldl (fun sortedRev x => insertLeft less x sortedRev) acc).Perm (l ++ acc) := by
  induction l with
  | nil => intro acc; exact List.Perm.refl _
  | cons x xs ih =>
    intro acc
    simp only [List.foldl_cons, List.cons_append]
    refine (ih (insertLeft less x acc)).trans ?_
    exact (List.Perm.append_left xs (perm_insertLeft less x acc)).trans
      List.perm_middle

/-- Go's insertion sort only rearranges the slice, whatever `less` is. -/
theorem perm_insertionSortLessFunc (less : κ → κ → Bool) (l : List κ) :
    (insertionSortLessFunc less l).Perm l := by
  have h := perm_foldl_insertLeft less l []
  rw [List.append_nil] at h
  exact (List.reverse_perm _).trans h

/-- Insertion sort meets the contract of `sort.Slice`. -/
theorem sortsSlices_insertionSortSlice : SortsSlices (insertionSortSlice : SliceSort κ) :=
  fun less l => ⟨perm_insertionSortSlice less l, pairwise_insertionSortSlice less l⟩

theorem stateAfter_cons (call : σ → κ → Option GoError × σ) (s : σ) (c : κ) (cs : List κ) :
    stateAfter call s (c :: cs) = stateAfter call (call s c).2 cs := by
  simp [stateAfter]

/-- When every call of the loop succeeds, the loop calls the platform on every
comment, in order, and returns nil. -/
theorem rangeComments_all_ok (call : σ → κ → Option GoError × σ) (mk : κ → Call κ) :
    ∀ (l : List κ) (s : σ),
      (∀ pre v post, l = pre ++ v :: post → (call (stateAfter call s pre) v).1 = none) →
      rangeComments call mk l s = ⟨none, stateAfter call s l, l.map mk⟩
  | [], s, _ => by simp [rangeComments, stateAfter]
  | c :: rest, s, hall => by
    have hc : (call s c).1 = none := hall [] c rest rfl
    have hcall : call s c = (none, (call s c).2) := Prod.ext hc rfl
    have hrest := rangeComments_all_ok call mk rest (call s c).2 (fun pre v post hsplit => by
      have := hall (c :: pre) v post (by rw [hsplit]; rfl)
      rwa [stateAfter_cons] at this)
    rw [rangeComments, hcall]
    simp only [hrest, stateAfter_cons, List.map_cons]

/-- When the first failing call of the loop is the one on `v`, the loop stops
there and returns the wrapped error. -/
theorem rangeComments_first_failure (call : σ → κ → Option GoError × σ) (mk : κ → Call κ)
    (v : κ) (post : List κ) (e : GoError) (s2 : σ) :
    ∀ (pre : List κ) (s : σ),
      (∀ p u q, pre = p ++ u :: q → (call (stateAfter call s p) u).1 = none) →
      call (stateAfter call s pre) v = (some e, s2) →
      rangeComments call mk (pre ++ v :: post) s =
        ⟨newPlatformError (some e), s2, (pre ++ [v]).map mk⟩
  | [], s, _, hfail => by
    have hfail2 : call s v = (some e, s2) := hfail
    simp [rangeComments, hfail2]
  | c :: rest, s, hall, hfail => by
    have hc : (call s c).1 = none := hall [] c rest rfl
    have hcall : call s c = (none, (call s c).2) := Prod.ext hc rfl
    have hrest := rangeComments_first_failure call mk v post e s2 rest (call s c).2
      (fun p u q hsplit => by
        have := hall (c :: p) u q (by rw [hsplit]; rfl)
        rwa [stateAfter_cons] at this)
      (by rwa [stateAfter_cons] at hfail)
    rw [List.cons_append, rangeComments, hcall]
    simp only [hrest, List.cons_append, List.map_cons]

theorem length_eq_countP_add_countP_not (p : κ → Bool) (l : List κ) :
    l.length = l.countP p + l.countP (fun x => !p x) := by
  induction l with
  | nil => rfl
  | cons x xs ih =>
    cases hp : p x <;> simp [List.countP_cons, hp, ih] <;> omega

theorem countP_isHide_map_hide (l : List κ) :
    (l.map Call.hide).countP Call.isHide = l.length := by
  induction l with
  | nil => rfl
  | cons x xs ih => simp [Call.isHide, ih]

theorem countP_isDelete_map_delete (l : List κ) :
    (l.map Call.delete).countP Call.isDelete = l.length := by
  induction l with
  | nil => rfl
  | cons x xs ih => simp [Call.isDelete, ih]

theorem filter_isCreate_map_hide (l : List κ) :
    (l.map Call.hide).filter Call.isCreate = [] := by
  induction l with
  | nil => rfl
  | cons x xs ih => simp [Call.isCreate]

theorem filter_isCreate_map_delete (l : List κ) :
    (l.map Call.delete).filter Call.isCreate = [] := by
  induction l with
  | nil => rfl
  | cons x xs ih => simp [Call.isCreate]

theorem filter_isHide_map_delete (l : List κ) :
    (l.map Call.delete).filter Call.isHide = [] := by
  induction l with
  | nil => rfl
  | cons x xs ih => simp [Call.isHide]

/-- A wrapped platform error keeps the platform's error as its cause. -/
theorem newPlatformError_unwrap (e : GoError) :
    ∃ w, newPlatformError (some e) = some w ∧ w.Unwrap = some e :=
  ⟨_, rfl, rfl⟩

theorem NewComment_ok (h : CommentHandler σ κ) (body : String) (s s2 : σ) (c : κ)
    (hcreate : h.PlatformHandler.CallCreateComment s
      (h.PlatformHandler.AddMarkdownTag body h.Tag) = (.ok c, s2)) :
    NewComment h body s =
      ⟨none, s2, [.addMarkdownTag body h.Tag,
        .create (h.PlatformHandler.AddMarkdownTag body h.Tag)]⟩ := by
  simp [NewComment, hcreate]

/-! ### Replaying the calls on the platform -/

theorem stateAfterCalls_append (p : PlatformHandler σ κ) (s : σ) (a b : List (Call κ)) :
    stateAfterCalls p s (a ++ b) = stateAfterCalls p (stateAfterCalls p s a) b := by
  simp [stateAfterCalls]

theorem answers_append (p : PlatformHandler σ κ) (a b : List (Call κ)) :
    ∀ s : σ, answers p s (a ++ b) = answers p s a ++ answers p (stateAfterCalls p s a) b := by
  induction a with
  | nil => intro s; rfl
  | cons c cs ih =>
    intro s
    have hst : stateAfterCalls p s (c :: cs) = stateAfterCalls p (p.respond s c).2 cs := by
      simp [stateAfterCalls]
    rw [List.cons_append, answers, answers, ih, hst, List.cons_append]

theorem answers_length (p : PlatformHandler σ κ) (calls : List (Call κ)) :
    ∀ s : σ, (answers p s calls).length = calls.length := by
  induction calls with
  | nil => intro s; rfl
  | cons c cs ih => intro s; simp [answers, ih]

theorem failsOnlyLast_cons_none (err : Option GoError) (l : List (Option GoError)) :
    FailsOnlyLast err (none :: l) ↔ FailsOnlyLast err l := by
  cases l <;> simp [FailsOnlyLast, newPlatformError]

theorem failsOnlyLast_none_cons (a : Option GoError) (l : List (Option GoError))
    (hl : FailsOnlyLast none (a :: l)) : a = none ∧ FailsOnlyLast none l := by
  cases l with
  | nil =>
    cases a with
    | none => exact ⟨rfl, rfl⟩
    | some e => simp [FailsOnlyLast, newPlatformError] at hl
  | cons b rest => exact hl

/-- Calls that all succeeded can be put in front of a run. -/
theorem failsOnlyLast_append (err : Option GoError) (l2 : List (Option GoError)) :
    ∀ l1 : List (Option GoError), FailsOnlyLast none l1 → FailsOnlyLast err l2 →
      FailsOnlyLast err (l1 ++ l2)
  | [], _, h2 => h2
  | a :: l1, h1, h2 => by
    obtain ⟨ha, hl1⟩ := failsOnlyLast_none_cons a l1 h1
    subst ha
    rw [List.cons_append, failsOnlyLast_cons_none]
    exact failsOnlyLast_append err l2 l1 hl1 h2

/-- When a call was answered with an error, it is the last one and the error
returned is that error, wrapped. -/
theorem failsOnlyLast_failure (err : Option GoError) (e : GoError)
    (after : List (Option GoError)) :
    ∀ before : List (Option GoError), FailsOnlyLast err (before ++ some e :: after) →
      after = [] ∧ err = newPlatformError (some e)
  | [], h => by
    cases after with
    | nil => exact ⟨rfl, h⟩
    | cons b rest => simp [FailsOnlyLast] at h
  | a :: before, h => by
    cases hb : before ++ some e :: after with
    | nil => simp at hb
    | cons b rest =>
      rw [List.cons_append, hb] at h
      have h2 : FailsOnlyLast err (b :: rest) := h.2
      rw [← hb] at h2
      exact failsOnlyLast_failure err e after before h2

theorem failFast_seq (p : PlatformHandler σ κ) (s s1 s2 : σ) (calls1 calls2 : List (Call κ))
    (err : Option GoError) (h1 : FailFast p s calls1 s1 none)
    (h2 : FailFast p s1 calls2 s2 err) : FailFast p s (calls1 ++ calls2) s2 err := by
  obtain ⟨hs1, ha1⟩ := h1
  obtain ⟨hs2, ha2⟩ := h2
  subst hs1
  exact ⟨by rw [hs2, stateAfterCalls_append],
    by rw [answers_append]; exact failsOnlyLast_append err _ _ ha1 ha2⟩

theorem matchingComments_failFast (h : CommentHandler σ κ) (s : σ) :
    FailFast h.PlatformHandler s (matchingComments h s).calls (matchingComments h s).state
      (matchingComments h s).ret.2 := by
  rcases hfind : h.PlatformHandler.CallFindMatchingComments s h.Tag with ⟨e | cs, s1⟩ <;>
    simp [matchingComments, hfind, FailFast, answers, stateAfterCalls,
      PlatformHandler.respond, FailsOnlyLast, newPlatformError]

theorem NewComment_failFast (h : CommentHandler σ κ) (body : String) (s : σ) :
    FailFast h.PlatformHandler s (NewComment h body s).calls (NewComment h body s).state
      (NewComment h body s).ret := by
  rcases hcreate : h.PlatformHandler.CallCreateComment s
    (h.PlatformHandler.AddMarkdownTag body h.Tag) with ⟨e | c, s1⟩ <;>
    simp [NewComment, hcreate, FailFast, answers, stateAfterCalls,
      PlatformHandler.respond, FailsOnlyLast, newPlatformError]

theorem rangeComments_failFast (p : PlatformHandler σ κ) (call : σ → κ → Option GoError × σ)
    (mk : κ → Call κ) (hmk : ∀ s c, p.respond s (mk c) = call s c) :
    ∀ (l : List κ) (s : σ),
      FailFast p s (rangeComments call mk l s).calls (rangeComments call mk l s).state
        (rangeComments call mk l s).ret
  | [], s => by simp [rangeComments, FailFast, answers, stateAfterCalls, FailsOnlyLast]
  | c :: rest, s => by
    rcases hcall : call s c with ⟨_ | e, s1⟩
    · have ih := rangeComments_failFast p call mk hmk rest s1
      have hone : FailFast p s [mk c] s1 none := by
        simp [FailFast, answers, stateAfterCalls, hmk, hcall, FailsOnlyLast, newPlatformError]
      have := failFast_seq p s s1 _ [mk c] _ _ hone ih
      simpa [rangeComments, hcall] using this
    · simp [rangeComments, hcall, FailFast, answers, stateAfterCalls, hmk, FailsOnlyLast]

theorem LatestMatchingComment_failFast [Comment κ] (sortSlice : SliceSort κ)
    (h : CommentHandler σ κ) (s : σ) :
    FailFast h.PlatformHandler s (LatestMatchingComment sortSlice h s).calls
      (LatestMatchingComment sortSlice h s).state (LatestMatchingComment sortSlice h s).ret.2 := by
  have hm := matchingComments_failFast h s
  simp only [LatestMatchingComment]
  rcases hr : (matchingComments h s).ret with ⟨cs, _ | err⟩
  · rw [hr] at hm
    dsimp only
    split <;> exact hm
  · rw [hr] at hm
    exact hm

theorem failFast_one (p : PlatformHandler σ κ) (s s1 : σ) (c : Call κ) (a : Option GoError)
    (hc : p.respond s c = (a, s1)) : FailFast p s [c] s1 (newPlatformError a) := by
  simp [FailFast, answers, stateAfterCalls, hc, FailsOnlyLast]

theorem failFast_tag (p : PlatformHandler σ κ) (s : σ) (body tag : String) :
    FailFast p s [.addMarkdownTag body tag] s none :=
  failFast_one p s s (.addMarkdownTag body tag) none rfl

theorem UpdateComment_failFast [Comment κ] (sortSlice : SliceSort κ) (h : CommentHandler σ κ)
    (skipNoDiff : Bool) (body : String) (s : σ) :
    FailFast h.PlatformHandler s (UpdateComment sortSlice h skipNoDiff body s).calls
        (UpdateComment sortSlice h skipNoDiff body s).state
        (UpdateComment sortSlice h skipNoDiff body s).ret.2 ∧
      ((UpdateComment sortSlice h skipNoDiff body s).ret.2 ≠ none →
        (UpdateComment sortSlice h skipNoDiff body s).ret.1 = false) := by
  have hl := LatestMatchingComment_failFast sortSlice h s
  have htag := failFast_tag h.PlatformHandler s body h.Tag
  rcases hr : (LatestMatchingComment sortSlice h s).ret with ⟨latest, _ | err⟩
  · rw [hr] at hl
    have hpre := failFast_seq _ _ _ _ _ _ _ htag hl
    cases latest with
    | none =>
      cases skipNoDiff with
      | true => simpa [UpdateComment, hr] using hpre
      | false =>
        rcases hc : h.PlatformHandler.CallCreateComment
          (LatestMatchingComment sortSlice h s).state
          (h.PlatformHandler.AddMarkdownTag body h.Tag) with ⟨e | c, s2⟩
        · have hone := failFast_one h.PlatformHandler
            (LatestMatchingComment sortSlice h s).state s2
            (.create (h.PlatformHandler.AddMarkdownTag body h.Tag)) (some e)
            (by simp [PlatformHandler.respond, hc])
          have := failFast_seq _ _ _ _ _ _ _ hpre hone
          simpa [UpdateComment, hr, hc] using this
        · have hone := failFast_one h.PlatformHandler
            (LatestMatchingComment sortSlice h s).state s2
            (.create (h.PlatformHandler.AddMarkdownTag body h.Tag)) none
            (by simp [PlatformHandler.respond, hc])
          have := failFast_seq _ _ _ _ _ _ _ hpre hone
          simpa [UpdateComment, hr, hc, newPlatformError] using this
    | some m =>
      by_cases hb : Comment.Body m = h.PlatformHandler.AddMarkdownTag body h.Tag
      · simpa [UpdateComment, hr, hb] using hpre
      · rcases hu : h.PlatformHandler.CallUpdateComment
          (LatestMatchingComment sortSlice h s).state m
          (h.PlatformHandler.AddMarkdownTag body h.Tag) with ⟨_ | e, s2⟩
        · have hone := failFast_one h.PlatformHandler
            (LatestMatchingComment sortSlice h s).state s2
            (.update m (h.PlatformHandler.AddMarkdownTag body h.Tag)) none
            (by simp [PlatformHandler.respond, hu])
          have := failFast_seq _ _ _ _ _ _ _ hpre hone
          simpa [UpdateComment, hr, hb, hu, newPlatformError] using this
        · have hone := failFast_one h.PlatformHandler
            (LatestMatchingComment sortSlice h s).state s2
            (.update m (h.PlatformHandler.AddMarkdownTag body h.Tag)) (some e)
            (by simp [PlatformHandler.respond, hu])
          have := failFast_seq _ _ _ _ _ _ _ hpre hone
          simpa [UpdateComment, hr, hb, hu] using this
  · rw [hr] at hl
    have hpre := failFast_seq _ _ _ _ _ _ _ htag hl
    simpa [UpdateComment, hr] using hpre

theorem hideComments_failFast_aux [Comment κ] (h : CommentHandler σ κ) (comments : List κ) (s : σ) :
    FailFast h.PlatformHandler s (hideComments h comments s).calls (hideComments h comments s).state
      (hideComments h comments s).ret :=
  rangeComments_failFast h.PlatformHandler h.PlatformHandler.CallHideComment Call.hide
    (fun _ _ => rfl) _ s

theorem HideAndNewComment_failFast [Comment κ] (h : CommentHandler σ κ) (skipNoDiff : Bool)
    (body : String) (s : σ) :
    FailFast h.PlatformHandler s (HideAndNewComment h skipNoDiff body s).calls
        (HideAndNewComment h skipNoDiff body s).state (HideAndNewComment h skipNoDiff body s).ret.2 ∧
      ((HideAndNewComment h skipNoDiff body s).ret.2 ≠ none →
        (HideAndNewComment h skipNoDiff body s).ret.1 = false) := by
  have hm := matchingComments_failFast h s
  rcases hr : (matchingComments h s).ret with ⟨cs, _ | err⟩
  · rw [hr] at hm
    by_cases hg : (decide (cs.length = 0) && skipNoDiff) = true
    · simp only [HideAndNewComment, hr, hg, if_true]
      exact ⟨hm, by simp⟩
    · have h1 := hideComments_failFast_aux h cs (matchingComments h s).state
      rcases hr1 : (hideComments h cs (matchingComments h s).state).ret with _ | err1
      · rw [hr1] at h1
        have h12 := failFast_seq _ _ _ _ _ _ _ hm h1
        have h2 := NewComment_failFast h body (hideComments h cs (matchingComments h s).state).state
        have h123 := failFast_seq _ _ _ _ _ _ _ h12 h2
        rcases hr2 : (NewComment h body
          (hideComments h cs (matchingComments h s).state).state).ret with _ | err2
        · rw [hr2] at h123
          simp only [HideAndNewComment, hr, hg, hr1, hr2]
          exact ⟨h123, by simp⟩
        · rw [hr2] at h123
          simp only [HideAndNewComment, hr, hg, hr1, hr2]
          exact ⟨h123, by simp⟩
      · rw [hr1] at h1
        have h12 := failFast_seq _ _ _ _ _ _ _ hm h1
        simp only [HideAndNewComment, hr, hg, hr1]
        exact ⟨h12, by simp⟩
  · rw [hr] at hm
    simp only [HideAndNewComment, hr]
    exact ⟨hm, by simp⟩

theorem deleteComments_failFast_aux (h : CommentHandler σ κ) (comments : List κ) (s : σ) :
    FailFast h.PlatformHandler s (deleteComments h comments s).calls (deleteComments h comments s).state
      (deleteComments h comments s).ret :=
  rangeComments_failFast h.PlatformHandler h.PlatformHandler.CallDeleteComment Call.delete
    (fun _ _ => rfl) _ s

theorem DeleteAndNewComment_failFast (h : CommentHandler σ κ) (skipNoDiff : Bool)
    (body : String) (s : σ) :
    FailFast h.PlatformHandler s (DeleteAndNewComment h skipNoDiff body s).calls
        (DeleteAndNewComment h skipNoDiff body s).state (DeleteAndNewComment h skipNoDiff body s).ret.2 ∧
      ((DeleteAndNewComment h skipNoDiff body s).ret.2 ≠ none →
        (DeleteAndNewComment h skipNoDiff body s).ret.1 = false) := by
  have hm := matchingComments_failFast h s
  rcases hr : (matchingComments h s).ret with ⟨cs, _ | err⟩
  · rw [hr] at hm
    by_cases hg : (decide (cs.length = 0) && skipNoDiff) = true
    · simp only [DeleteAndNewComment, hr, hg, if_true]
      exact ⟨hm, by simp⟩
    · have h1 := deleteComments_failFast_aux h cs (matchingComments h s).state
      rcases hr1 : (deleteComments h cs (matchingComments h s).state).ret with _ | err1
      · rw [hr1] at h1
        have h12 := failFast_seq _ _ _ _ _ _ _ hm h1
        have h2 := NewComment_failFast h body (deleteComments h cs (matchingComments h s).state).state
        have h123 := failFast_seq _ _ _ _ _ _ _ h12 h2
        rcases hr2 : (NewComment h body
          (deleteComments h cs (matchingComments h s).state).state).ret with _ | err2
        · rw [hr2] at h123
          simp only [DeleteAndNewComment, hr, hg, hr1, hr2]
          exact ⟨h123, by simp⟩
        · rw [hr2] at h123
          simp only [DeleteAndNewComment, hr, hg, hr1, hr2]
          exact ⟨h123, by simp⟩
      · rw [hr1] at h1
        have h12 := failFast_seq _ _ _ _ _ _ _ hm h1
        simp only [DeleteAndNewComment, hr, hg, hr1]
        exact ⟨h12, by simp⟩
  · rw [hr] at hm
    simp only [DeleteAndNewComment, hr]
    exact ⟨hm, by simp⟩

theorem CommentWithBehavior_failFast [Comment κ] (sortSlice : SliceSort κ)
    (h : CommentHandler σ κ) (skipNoDiff : Bool) (behavior body : String) (s : σ)
    (hvalid : behavior = "update" ∨ behavior = "new" ∨ behavior = "hide-and-new" ∨
      behavior = "delete-and-new") :
    FailFast h.PlatformHandler s (CommentWithBehavior sortSlice h skipNoDiff behavior body s).calls
        (CommentWithBehavior sortSlice h skipNoDiff behavior body s).state
        (CommentWithBehavior sortSlice h skipNoDiff behavior body s).ret.2 ∧
      ((CommentWithBehavior sortSlice h skipNoDiff behavior body s).ret.2 ≠ none →
        (CommentWithBehavior sortSlice h skipNoDiff behavior body s).ret.1 = false) := by
  rcases hvalid with rfl | rfl | rfl | rfl
  · simpa [CommentWithBehavior] using UpdateComment_failFast sortSlice h skipNoDiff body s
  · have hn := NewComment_failFast h body s
    have h1 : ("new" : String) ≠ "update" := by decide
    simp only [CommentWithBehavior, h1, if_false, if_true]
    rcases hr : (NewComment h body s).ret with _ | err
    · rw [hr] at hn
      exact ⟨hn, by simp⟩
    · rw [hr] at hn
      exact ⟨hn, by simp⟩
  · have h1 : ("hide-and-new" : String) ≠ "update" := by decide
    have h2 : ("hide-and-new" : String) ≠ "new" := by decide
    simpa [CommentWithBehavior, h1, h2] using HideAndNewComment_failFast h skipNoDiff body s
  · have h1 : ("delete-and-new" : String) ≠ "update" := by decide
    have h2 : ("delete-and-new" : String) ≠ "new" := by decide
    have h3 : ("delete-and-new" : String) ≠ "hide-and-new" := by decide
    simpa [CommentWithBehavior, h1, h2, h3] using
      DeleteAndNewComment_failFast h skipNoDiff body s

theorem CommentWithBehavior_invalid_calls [Comment κ] (sortSlice : SliceSort κ)
    (h : CommentHandler σ κ) (skipNoDiff : Bool) (behavior body : String) (s : σ)
    (hinvalid : ¬ (behavior = "update" ∨ behavior = "new" ∨ behavior = "hide-and-new" ∨
      behavior = "delete-and-new")) :
    (CommentWithBehavior sortSlice h skipNoDiff behavior body s).calls = [] := by
  simp only [not_or] at hinvalid
  simp [CommentWithBehavior, hinvalid]

/-! ### The shape of the call traces -/

theorem matchingComments_calls (h : CommentHandler σ κ) (s : σ) :
    (matchingComments h s).calls = [.findMatching h.Tag] := by
  simp only [matchingComments]
  split <;> rfl

theorem LatestMatchingComment_calls [Comment κ] (sortSlice : SliceSort κ)
    (h : CommentHandler σ κ) (s : σ) :
    (LatestMatchingComment sortSlice h s).calls = [.findMatching h.Tag] := by
  simp only [LatestMatchingComment]
  split
  · exact matchingComments_calls h s
  · split <;> exact matchingComments_calls h s

theorem NewComment_calls (h : CommentHandler σ κ) (body : String) (s : σ) :
    (NewComment h body s).calls =
      [.addMarkdownTag body h.Tag, .create (h.PlatformHandler.AddMarkdownTag body h.Tag)] := by
  simp only [NewComment]
  split <;> rfl

theorem rangeComments_calls (call : σ → κ → Option GoError × σ) (mk : κ → Call κ) :
    ∀ (l : List κ) (s : σ), ∃ done rest, l = done ++ rest ∧
      (rangeComments call mk l s).calls = done.map mk
  | [], s => ⟨[], [], rfl, rfl⟩
  | c :: rest, s => by
    rcases hcall : call s c with ⟨_ | e, s1⟩
    · obtain ⟨done, rest2, hsplit, hcalls⟩ := rangeComments_calls call mk rest s1
      exact ⟨c :: done, rest2, by rw [hsplit]; rfl, by simp [rangeComments, hcall, hcalls]⟩
    · exact ⟨[c], rest, rfl, by simp [rangeComments, hcall]⟩

theorem UpdateComment_calls [Comment κ] (sortSlice : SliceSort κ) (h : CommentHandler σ κ)
    (skipNoDiff : Bool) (body : String) (s : σ) :
    ∃ tail, (UpdateComment sortSlice h skipNoDiff body s).calls =
        .addMarkdownTag body h.Tag :: .findMatching h.Tag :: tail ∧
      (tail = [] ∨ (∃ m, tail = [.update m (h.PlatformHandler.AddMarkdownTag body h.Tag)]) ∨
        tail = [.create (h.PlatformHandler.AddMarkdownTag body h.Tag)]) := by
  have hl := LatestMatchingComment_calls sortSlice h s
  simp only [UpdateComment, hl]
  split
  · exact ⟨[], rfl, Or.inl rfl⟩
  · split
    · exact ⟨[], rfl, Or.inl rfl⟩
    · split
      · exact ⟨_, rfl, Or.inr (Or.inl ⟨_, rfl⟩)⟩
      · exact ⟨_, rfl, Or.inr (Or.inl ⟨_, rfl⟩)⟩
  · split
    · exact ⟨[], rfl, Or.inl rfl⟩
    · split
      · exact ⟨_, rfl, Or.inr (Or.inr rfl)⟩
      · exact ⟨_, rfl, Or.inr (Or.inr rfl)⟩

theorem HideAndNewComment_calls [Comment κ] (h : CommentHandler σ κ) (skipNoDiff : Bool)
    (body : String) (s : σ) :
    ∃ (l : List κ) (tail : List (Call κ)), (HideAndNewComment h skipNoDiff body s).calls =
        .findMatching h.Tag :: l.map Call.hide ++ tail ∧
      (tail = [] ∨ tail = [.addMarkdownTag body h.Tag,
        .create (h.PlatformHandler.AddMarkdownTag body h.Tag)]) := by
  have hm := matchingComments_calls h s
  have hn := NewComment_calls h body
  rcases hr : (matchingComments h s).ret with ⟨cs, _ | err⟩
  · by_cases hg : (decide (cs.length = 0) && skipNoDiff) = true
    · exact ⟨[], [], by simp [HideAndNewComment, hr, hg, hm], Or.inl rfl⟩
    · obtain ⟨done, rest, _, hdone⟩ := rangeComments_calls
        h.PlatformHandler.CallHideComment Call.hide (cs.filter (fun comment => !Comment.IsHidden comment))
        (matchingComments h s).state
      have hdone2 : (hideComments h cs (matchingComments h s).state).calls =
          done.map Call.hide := hdone
      rcases hr1 : (hideComments h cs (matchingComments h s).state).ret with _ | err1
      · rcases hr2 : (NewComment h body
          (hideComments h cs (matchingComments h s).state).state).ret with _ | err2
        · exact ⟨done, _, by simp [HideAndNewComment, hr, hg, hr1, hr2, hm, hn, hdone2], Or.inr rfl⟩
        · exact ⟨done, _, by simp [HideAndNewComment, hr, hg, hr1, hr2, hm, hn, hdone2], Or.inr rfl⟩
      · exact ⟨done, [], by simp [HideAndNewComment, hr, hg, hr1, hm, hdone2], Or.inl rfl⟩
  · exact ⟨[], [], by simp [HideAndNewComment, hr, hm], Or.inl rfl⟩

theorem DeleteAndNewComment_calls (h : CommentHandler σ κ) (skipNoDiff : Bool)
    (body : String) (s : σ) :
    ∃ (l : List κ) (tail : List (Call κ)), (DeleteAndNewComment h skipNoDiff body s).calls =
        .findMatching h.Tag :: l.map Call.delete ++ tail ∧
      (tail = [] ∨ tail = [.addMarkdownTag body h.Tag,
        .create (h.PlatformHandler.AddMarkdownTag body h.Tag)]) := by
  have hm := matchingComments_calls h s
  have hn := NewComment_calls h body
  rcases hr : (matchingComments h s).ret with ⟨cs, _ | err⟩
  · by_cases hg : (decide (cs.length = 0) && skipNoDiff) = true
    · exact ⟨[], [], by simp [DeleteAndNewComment, hr, hg, hm], Or.inl rfl⟩
    · obtain ⟨done, rest, _, hdone⟩ := rangeComments_calls
        h.PlatformHandler.CallDeleteComment Call.delete cs
        (matchingComments h s).state
      have hdone2 : (deleteComments h cs (matchingComments h s).state).calls =
          done.map Call.delete := hdone
      rcases hr1 : (deleteComments h cs (matchingComments h s).state).ret with _ | err1
      · rcases hr2 : (NewComment h body
          (deleteComments h cs (matchingComments h s).state).state).ret with _ | err2
        · exact ⟨done, _, by simp [DeleteAndNewComment, hr, hg, hr1, hr2, hm, hn, hdone2], Or.inr rfl⟩
        · exact ⟨done, _, by simp [DeleteAndNewComment, hr, hg, hr1, hr2, hm, hn, hdone2], Or.inr rfl⟩
      · exact ⟨done, [], by simp [DeleteAndNewComment, hr, hg, hr1, hm, hdone2], Or.inl rfl⟩
  · exact ⟨[], [], by simp [DeleteAndNewComment, hr, hm], Or.inl rfl⟩

theorem CommentWithBehavior_update [Comment κ] (sortSlice : SliceSort κ)
    (h : CommentHandler σ κ) (skipNoDiff : Bool) (body : String) (s : σ) :
    CommentWithBehavior sortSlice h skipNoDiff "update" body s =
      UpdateComment sortSlice h skipNoDiff body s := by
  simp [CommentWithBehavior]

theorem CommentWithBehavior_calls_of_new [Comment κ] (sortSlice : SliceSort κ)
    (h : CommentHandler σ κ) (skipNoDiff : Bool) (body : String) (s : σ) :
    (CommentWithBehavior sortSlice h skipNoDiff "new" body s).calls =
      [.addMarkdownTag body h.Tag, .create (h.PlatformHandler.AddMarkdownTag body h.Tag)] := by
  have h1 : ("new" : String) ≠ "update" := by decide
  simp only [CommentWithBehavior, h1, if_false, if_true]
  split <;> exact NewComment_calls h body s

theorem CommentWithBehavior_hide [Comment κ] (sortSlice : SliceSort κ)
    (h : CommentHandler σ κ) (skipNoDiff : Bool) (body : String) (s : σ) :
    CommentWithBehavior sortSlice h skipNoDiff "hide-and-new" body s =
      HideAndNewComment h skipNoDiff body s := by
  have h1 : ("hide-and-new" : String) ≠ "update" := by decide
  have h2 : ("hide-and-new" : String) ≠ "new" := by decide
  simp [CommentWithBehavior, h1, h2]

theorem CommentWithBehavior_delete [Comment κ] (sortSlice : SliceSort κ)
    (h : CommentHandler σ κ) (skipNoDiff : Bool) (body : String) (s : σ) :
    CommentWithBehavior sortSlice h skipNoDiff "delete-and-new" body s =
      DeleteAndNewComment h skipNoDiff body s := by
  have h1 : ("delete-and-new" : String) ≠ "update" := by decide
  have h2 : ("delete-and-new" : String) ≠ "new" := by decide
  have h3 : ("delete-and-new" : String) ≠ "hide-and-new" := by decide
  simp [CommentWithBehavior, h1, h2, h3]

/-- Every create or update call of an invocation carries the tagged body. -/
theorem CommentWithBehavior_carries [Comment κ] (sortSlice : SliceSort κ)
    (h : CommentHandler σ κ) (skipNoDiff : Bool) (behavior body : String) (s : σ) :
    ∀ c ∈ (CommentWithBehavior sortSlice h skipNoDiff behavior body s).calls,
      c.carries (h.PlatformHandler.AddMarkdownTag body h.Tag) := by
  by_cases hvalid : behavior = "update" ∨ behavior = "new" ∨ behavior = "hide-and-new" ∨
      behavior = "delete-and-new"
  · rcases hvalid with rfl | rfl | rfl | rfl
    · obtain ⟨tail, hcalls, htail⟩ := UpdateComment_calls sortSlice h skipNoDiff body s
      rw [CommentWithBehavior_update, hcalls]
      rcases htail with rfl | ⟨m, rfl⟩ | rfl <;> simp [Call.carries]
    · rw [CommentWithBehavior_calls_of_new]
      simp [Call.carries]
    · obtain ⟨l, tail, hcalls, htail⟩ := HideAndNewComment_calls h skipNoDiff body s
      rw [CommentWithBehavior_hide, hcalls]
      rcases htail with rfl | rfl <;>
        (simp [Call.carries]; try (rintro c (⟨x, -, rfl⟩ | rfl | rfl) <;> simp))
    · obtain ⟨l, tail, hcalls, htail⟩ := DeleteAndNewComment_calls h skipNoDiff body s
      rw [CommentWithBehavior_delete, hcalls]
      rcases htail with rfl | rfl <;>
        (simp [Call.carries]; try (rintro c (⟨x, -, rfl⟩ | rfl | rfl) <;> simp))
  · rw [CommentWithBehavior_invalid_calls sortSlice h skipNoDiff behavior body s hvalid]
    simp

/-- Lists with the same elements have the same greatest element. -/
theorem latest_eq_of_perm {less : κ → κ → Bool} (sortSlice : SliceSort κ)
    (hsort : SortsSlices sortSlice) (cs csB : List κ) (hperm : cs.Perm csB)
    (hord : StrictTotalOn less cs) :
    (sortSlice less cs).getLast? = (sortSlice less csB).getLast? := by
  have hp := (hsort less cs).1
  have hpB := (hsort less csB).1
  have hordB : StrictTotalOn less csB := hord.mono (fun a ha => hperm.mem_iff.mpr ha)
  by_cases hnil : sortSlice less cs = []
  · have hcs : cs = [] := by
      rw [hnil] at hp
      exact List.Perm.eq_nil hp.symm
    have hcsB : csB = [] := by
      rw [hcs] at hperm
      exact List.Perm.eq_nil hperm.symm
    have hnilB : sortSlice less csB = [] := by
      rw [hcsB] at hpB ⊢
      exact List.Perm.eq_nil hpB
    rw [hnil, hnilB]
  · have hnilB : sortSlice less csB ≠ [] := by
      intro e
      have hcsB : csB = [] := by
        rw [e] at hpB
        exact List.Perm.eq_nil hpB.symm
      have hcs : cs = [] := by
        rw [hcsB] at hperm
        exact List.Perm.eq_nil hperm
      rw [hcs] at hp hnil
      exact hnil (List.Perm.eq_nil hp)
    have hg := getLast_isGreatest hord hp ((hsort less cs).2 hord) hnil
    have hgB := getLast_isGreatest hordB hpB ((hsort less csB).2 hordB) hnilB
    have hgB2 : IsGreatest less cs ((sortSlice less csB).getLast hnilB) :=
      ⟨hperm.mem_iff.mpr hgB.1, fun x hx hne => hgB.2 x (hperm.mem_iff.mp hx) hne⟩
    rw [List.getLast?_eq_getLast _ hnil, List.getLast?_eq_getLast _ hnilB,
      IsGreatest.unique hord hg hgB2]

/-! ### The list platform -/

theorem listedFrom_append (a b : List String) :
    ∀ i : Nat, listedFrom i (a ++ b) = listedFrom i a ++ listedFrom (i + a.length) b := by
  induction a with
  | nil => intro i; simp [listedFrom]
  | cons x xs ih =>
    intro i
    have hidx : i + 1 + xs.length = i + (xs.length + 1) := by omega
    show listedFrom i (x :: (xs ++ b)) = _
    rw [listedFrom, ih, listedFrom, List.cons_append, List.length_cons, hidx]

theorem mem_listedFrom (l : List String) :
    ∀ (i : Nat) (c : ListedComment), c ∈ listedFrom i l →
      i ≤ c.index ∧ c.index < i + l.length := by
  induction l with
  | nil => intro i c hc; simp [listedFrom] at hc
  | cons x xs ih =>
    intro i c hc
    simp only [listedFrom, List.mem_cons] at hc
    rcases hc with rfl | hc
    · simp
    · have := ih (i + 1) c hc
      simp only [List.length_cons]
      omega

theorem listedFrom_index_inj (l : List String) :
    ∀ (i : Nat) (x y : ListedComment), x ∈ listedFrom i l → y ∈ listedFrom i l →
      x.index = y.index → x = y := by
  induction l with
  | nil => intro i x y hx; simp [listedFrom] at hx
  | cons b bs ih =>
    intro i x y hx hy hxy
    simp only [listedFrom, List.mem_cons] at hx hy
    rcases hx with rfl | hx <;> rcases hy with rfl | hy
    · rfl
    · have := mem_listedFrom bs (i + 1) y hy
      simp only at hxy
      omega
    · have := mem_listedFrom bs (i + 1) x hx
      simp only at hxy
      omega
    · exact ih (i + 1) x y hx hy hxy

theorem strictTotalOn_listedFrom (i : Nat) (l : List String) :
    StrictTotalOn (Comment.Less : ListedComment → ListedComment → Bool) (listedFrom i l) := by
  refine ⟨fun x _ => ?_, fun x _ y _ z _ hxy hyz => ?_, fun x hx y hy hne => ?_⟩
  · simp [Comment.Less]
  · simp only [Comment.Less, decide_eq_true_eq] at hxy hyz ⊢
    omega
  · simp only [Comment.Less, decide_eq_true_eq]
    have hidx : x.index ≠ y.index := fun e => hne (listedFrom_index_inj l i x y hx hy e)
    omega

/-- On the list platform the latest comment is the last of the list. -/
theorem latest_listedFrom (sortSlice : SliceSort ListedComment) (hsort : SortsSlices sortSlice)
    (init : List String) (b : String) :
    (sortSlice Comment.Less (listedFrom 0 (init ++ [b]))).getLast? =
      some ⟨init.length, b⟩ := by
  have hord := strictTotalOn_listedFrom 0 (init ++ [b])
  have hperm := (hsort Comment.Less (listedFrom 0 (init ++ [b]))).1
  have hlist : listedFrom 0 (init ++ [b]) = listedFrom 0 init ++ [⟨init.length, b⟩] := by
    rw [listedFrom_append]
    simp [listedFrom]
  have hne : sortSlice Comment.Less (listedFrom 0 (init ++ [b])) ≠ [] := by
    intro e
    rw [e, hlist] at hperm
    have := List.Perm.eq_nil hperm.symm
    simp at this
  have hg := getLast_isGreatest hord hperm
    ((hsort Comment.Less (listedFrom 0 (init ++ [b]))).2 hord) hne
  have hlast : IsGreatest (Comment.Less : ListedComment → ListedComment → Bool)
      (listedFrom 0 (init ++ [b])) ⟨init.length, b⟩ := by
    rw [hlist]
    refine ⟨by simp, fun x hx hxne => ?_⟩
    rcases List.mem_append.mp hx with hx1 | hx2
    · have := mem_listedFrom init 0 x hx1
      simp only [Comment.Less, decide_eq_true_eq]
      omega
    · exact absurd (List.mem_singleton.mp hx2) hxne
  rw [List.getLast?_eq_getLast _ hne, IsGreatest.unique hord hg hlast]

theorem set_length_append_singleton (init : List String) (b t : String) :
    (init ++ [b]).set init.length t = init ++ [t] := by
  induction init with
  | nil => rfl
  | cons x xs ih => simp [List.set, ih]

/-- On the list platform, when the last comment carries the tagged body,
`UpdateComment` changes nothing. -/
theorem listHandler_noop (sortSlice : SliceSort ListedComment) (hsort : SortsSlices sortSlice)
    (addTag : String → String → String) (tag body : String) (skipNoDiff : Bool)
    (init : List String) :
    UpdateComment sortSlice (listHandler addTag tag) skipNoDiff body
        (init ++ [addTag body tag]) =
      ⟨(false, none), init ++ [addTag body tag],
        [.addMarkdownTag body tag, .findMatching tag]⟩ := by
  have hfind : (listHandler addTag tag).PlatformHandler.CallFindMatchingComments
      (init ++ [addTag body tag]) (listHandler addTag tag).Tag =
      (.ok (listedFrom 0 (init ++ [addTag body tag])), init ++ [addTag body tag]) := rfl
  have hlatest := latest_listedFrom sortSlice hsort init (addTag body tag)
  simp only [UpdateComment, LatestMatchingComment_ok sortSlice _ _ _ _ hfind, hlatest]
  simp [listHandler, listPlatform, Comment.Body]

/-- On the list platform a first `UpdateComment` with `skipNoDiff` false
succeeds and leaves a list whose last comment carries the tagged body. -/
theorem listHandler_first (sortSlice : SliceSort ListedComment) (hsort : SortsSlices sortSlice)
    (addTag : String → String → String) (tag body : String) (start : List String) :
    (UpdateComment sortSlice (listHandler addTag tag) false body start).ret.2 = none ∧
      ∃ init, (UpdateComment sortSlice (listHandler addTag tag) false body start).state =
        init ++ [addTag body tag] := by
  have hfind : (listHandler addTag tag).PlatformHandler.CallFindMatchingComments
      start (listHandler addTag tag).Tag = (.ok (listedFrom 0 start), start) := rfl
  rcases List.eq_nil_or_concat start with rfl | ⟨init, b, hstart⟩
  · have hnil : sortSlice Comment.Less (listedFrom 0 []) = [] :=
      List.Perm.eq_nil (hsort Comment.Less (listedFrom 0 [])).1
    simp only [UpdateComment, LatestMatchingComment_ok sortSlice _ _ _ _ hfind, hnil]
    exact ⟨by simp [listHandler, listPlatform], [], by simp [listHandler, listPlatform]⟩
  · rw [List.concat_eq_append] at hstart
    subst hstart
    have hlatest := latest_listedFrom sortSlice hsort init b
    simp only [UpdateComment, LatestMatchingComment_ok sortSlice _ _ _ _ hfind, hlatest]
    by_cases hb : b = addTag body tag
    · subst hb
      exact ⟨by simp [listHandler, listPlatform, Comment.Body],
        init, by simp [listHandler, listPlatform, Comment.Body]⟩
    · exact ⟨by simp [listHandler, listPlatform, Comment.Body, hb],
        init, by simp [listHandler, listPlatform, Comment.Body, hb,
          set_length_append_singleton]⟩

/-! ### Quiet and posting invocations -/

theorem failsOnlyLast_last (err a : Option GoError) :
    ∀ l : List (Option GoError), FailsOnlyLast err (l ++ [a]) → err = newPlatformError a
  | [], hl => hl
  | x :: l, hl => by
    cases hb : l ++ [a] with
    | nil => simp at hb
    | cons b rest =>
      rw [List.cons_append, hb] at hl
      have h2 : FailsOnlyLast err (b :: rest) := hl.2
      rw [← hb] at h2
      exact failsOnlyLast_last err a l h2

theorem newPlatformError_eq_none (a : Option GoError) : newPlatformError a = none ↔ a = none := by
  cases a <;> simp [newPlatformError]

theorem summary_quiet_short (calls : List (Call κ)) (ret : Bool × Option GoError)
    (hret : ret.1 = false)
    (hcalls : ∀ c ∈ calls, c.isCapability = true ∧ c.isCreate = false ∧ c.isUpdate = false)
    (hnone : ret.2 = none → ∀ c ∈ calls, c.isDelete = false ∧ c.isHide = false) :
    Summary calls ret :=
  Or.inl ⟨hret, fun c hc => (hcalls c hc).2, hnone,
    fun d hd => (hcalls d (List.mem_of_getLast?_eq_some hd)).1⟩

theorem UpdateComment_summary [Comment κ] (sortSlice : SliceSort κ) (h : CommentHandler σ κ)
    (skipNoDiff : Bool) (body : String) (s : σ) :
    Summary (UpdateComment sortSlice h skipNoDiff body s).calls
      (UpdateComment sortSlice h skipNoDiff body s).ret := by
  have hl := LatestMatchingComment_calls sortSlice h s
  have hquiet : ∀ ret : Bool × Option GoError, ret.1 = false →
      Summary ([.addMarkdownTag body h.Tag, .findMatching h.Tag] : List (Call κ)) ret :=
    fun ret hret => Or.inl ⟨hret, by simp [Call.isCreate, Call.isUpdate],
      fun _ => by simp [Call.isDelete, Call.isHide], by simp [Call.isCapability]⟩
  rcases hr : (LatestMatchingComment sortSlice h s).ret with ⟨latest, _ | err⟩
  · cases latest with
    | none =>
      cases skipNoDiff with
      | true =>
        simp only [UpdateComment, hr, hl, if_true]
        exact hquiet _ rfl
      | false =>
        rcases hc : h.PlatformHandler.CallCreateComment
          (LatestMatchingComment sortSlice h s).state
          (h.PlatformHandler.AddMarkdownTag body h.Tag) with ⟨e | c, s2⟩
        · simp only [UpdateComment, hr, hl, hc]
          exact Or.inr ⟨[.addMarkdownTag body h.Tag, .findMatching h.Tag], _, rfl,
            Or.inl rfl, Or.inr ⟨rfl, by simp [newPlatformError]⟩⟩
        · simp only [UpdateComment, hr, hl, hc]
          exact Or.inr ⟨[.addMarkdownTag body h.Tag, .findMatching h.Tag], _, rfl,
            Or.inl rfl, Or.inl rfl⟩
    | some m =>
      by_cases hb : Comment.Body m = h.PlatformHandler.AddMarkdownTag body h.Tag
      · simp only [UpdateComment, hr, hl, hb, if_true]
        exact hquiet _ rfl
      · rcases hu : h.PlatformHandler.CallUpdateComment
          (LatestMatchingComment sortSlice h s).state m
          (h.PlatformHandler.AddMarkdownTag body h.Tag) with ⟨_ | e, s2⟩
        · simp only [UpdateComment, hr, hl, hb, hu, if_false]
          exact Or.inr ⟨[.addMarkdownTag body h.Tag, .findMatching h.Tag], _, rfl,
            Or.inr rfl, Or.inl rfl⟩
        · simp only [UpdateComment, hr, hl, hb, hu, if_false]
          exact Or.inr ⟨[.addMarkdownTag body h.Tag, .findMatching h.Tag], _, rfl,
            Or.inr rfl, Or.inr ⟨rfl, by simp [newPlatformError]⟩⟩
  · simp only [UpdateComment, hr, hl]
    exact hquiet _ rfl

theorem HideAndNewComment_summary [Comment κ] (h : CommentHandler σ κ) (skipNoDiff : Bool)
    (body : String) (s : σ) :
    Summary (HideAndNewComment h skipNoDiff body s).calls (HideAndNewComment h skipNoDiff body s).ret := by
  have hm := matchingComments_calls h s
  have hn := NewComment_calls h body
  have hfind : ∀ ret : Bool × Option GoError, ret.1 = false →
      Summary ([.findMatching h.Tag] : List (Call κ)) ret :=
    fun ret hret => summary_quiet_short _ ret hret
      (by simp [Call.isCapability, Call.isCreate, Call.isUpdate])
      (fun _ => by simp [Call.isDelete, Call.isHide])
  rcases hr : (matchingComments h s).ret with ⟨cs, _ | err⟩
  · by_cases hg : (decide (cs.length = 0) && skipNoDiff) = true
    · simp only [HideAndNewComment, hr, hg, hm, if_true]
      exact hfind _ rfl
    · obtain ⟨done, rest, _, hdone⟩ := rangeComments_calls
        h.PlatformHandler.CallHideComment Call.hide (cs.filter (fun comment => !Comment.IsHidden comment))
        (matchingComments h s).state
      have hdone2 : (hideComments h cs (matchingComments h s).state).calls =
          done.map Call.hide := hdone
      rcases hr1 : (hideComments h cs (matchingComments h s).state).ret with _ | err1
      · rcases hr2 : (NewComment h body
          (hideComments h cs (matchingComments h s).state).state).ret with _ | err2
        · simp only [HideAndNewComment, hr, hg, hr1, hr2, hm, hn, hdone2]
          exact Or.inr ⟨[.findMatching h.Tag] ++ done.map Call.hide ++
            [.addMarkdownTag body h.Tag],
            .create (h.PlatformHandler.AddMarkdownTag body h.Tag), by simp, Or.inl rfl,
            Or.inl rfl⟩
        · simp only [HideAndNewComment, hr, hg, hr1, hr2, hm, hn, hdone2]
          exact Or.inr ⟨[.findMatching h.Tag] ++ done.map Call.hide ++
            [.addMarkdownTag body h.Tag],
            .create (h.PlatformHandler.AddMarkdownTag body h.Tag), by simp, Or.inl rfl,
            Or.inr ⟨rfl, by simp⟩⟩
      · simp only [HideAndNewComment, hr, hg, hr1, hm, hdone2, Bool.false_eq_true, if_false]
        refine summary_quiet_short _ _ rfl ?_ (fun hnone => by simp at hnone)
        intro c hc
        have hc2 : c = .findMatching h.Tag ∨ ∃ x, c = Call.hide x := by
          simp only [List.cons_append, List.nil_append, List.mem_cons, List.mem_map] at hc
          rcases hc with hc | ⟨x, -, hx⟩
          · exact Or.inl hc
          · exact Or.inr ⟨x, hx.symm⟩
        rcases hc2 with rfl | ⟨x, rfl⟩ <;>
          simp [Call.isCapability, Call.isCreate, Call.isUpdate]
  · simp only [HideAndNewComment, hr, hm]
    exact hfind _ rfl

theorem DeleteAndNewComment_summary (h : CommentHandler σ κ) (skipNoDiff : Bool)
    (body : String) (s : σ) :
    Summary (DeleteAndNewComment h skipNoDiff body s).calls (DeleteAndNewComment h skipNoDiff body s).ret := by
  have hm := matchingComments_calls h s
  have hn := NewComment_calls h body
  have hfind : ∀ ret : Bool × Option GoError, ret.1 = false →
      Summary ([.findMatching h.Tag] : List (Call κ)) ret :=
    fun ret hret => summary_quiet_short _ ret hret
      (by simp [Call.isCapability, Call.isCreate, Call.isUpdate])
      (fun _ => by simp [Call.isDelete, Call.isHide])
  rcases hr : (matchingComments h s).ret with ⟨cs, _ | err⟩
  · by_cases hg : (decide (cs.length = 0) && skipNoDiff) = true
    · simp only [DeleteAndNewComment, hr, hg, hm, if_true]
      exact hfind _ rfl
    · obtain ⟨done, rest, _, hdone⟩ := rangeComments_calls
        h.PlatformHandler.CallDeleteComment Call.delete cs
        (matchingComments h s).state
      have hdone2 : (deleteComments h cs (matchingComments h s).state).calls =
          done.map Call.delete := hdone
      rcases hr1 : (deleteComments h cs (matchingComments h s).state).ret with _ | err1
      · rcases hr2 : (NewComment h body
          (deleteComments h cs (matchingComments h s).state).state).ret with _ | err2
        · simp only [DeleteAndNewComment, hr, hg, hr1, hr2, hm, hn, hdone2]
          exact Or.inr ⟨[.findMatching h.Tag] ++ done.map Call.delete ++
            [.addMarkdownTag body h.Tag],
            .create (h.PlatformHandler.AddMarkdownTag body h.Tag), by simp, Or.inl rfl,
            Or.inl rfl⟩
        · simp only [DeleteAndNewComment, hr, hg, hr1, hr2, hm, hn, hdone2]
          exact Or.inr ⟨[.findMatching h.Tag] ++ done.map Call.delete ++
            [.addMarkdownTag body h.Tag],
            .create (h.PlatformHandler.AddMarkdownTag body h.Tag), by simp, Or.inl rfl,
            Or.inr ⟨rfl, by simp⟩⟩
      · simp only [DeleteAndNewComment, hr, hg, hr1, hm, hdone2, Bool.false_eq_true, if_false]
        refine summary_quiet_short _ _ rfl ?_ (fun hnone => by simp at hnone)
        intro c hc
        have hc2 : c = .findMatching h.Tag ∨ ∃ x, c = Call.delete x := by
          simp only [List.cons_append, List.nil_append, List.mem_cons, List.mem_map] at hc
          rcases hc with hc | ⟨x, -, hx⟩
          · exact Or.inl hc
          · exact Or.inr ⟨x, hx.symm⟩
        rcases hc2 with rfl | ⟨x, rfl⟩ <;>
          simp [Call.isCapability, Call.isCreate, Call.isUpdate]
  · simp only [DeleteAndNewComment, hr, hm]
    exact hfind _ rfl

theorem CommentWithBehavior_summary [Comment κ] (sortSlice : SliceSort κ)
    (h : CommentHandler σ κ) (skipNoDiff : Bool) (behavior body : String) (s : σ) :
    Summary (CommentWithBehavior sortSlice h skipNoDiff behavior body s).calls
      (CommentWithBehavior sortSlice h skipNoDiff behavior body s).ret := by
  by_cases hvalid : behavior = "update" ∨ behavior = "new" ∨ behavior = "hide-and-new" ∨
      behavior = "delete-and-new"
  · rcases hvalid with rfl | rfl | rfl | rfl
    · rw [CommentWithBehavior_update]
      exact UpdateComment_summary sortSlice h skipNoDiff body s
    · have hn := NewComment_calls h body s
      have h1 : ("new" : String) ≠ "update" := by decide
      simp only [CommentWithBehavior, h1, if_false, if_true]
      rcases hr : (NewComment h body s).ret with _ | err
      · simp only [hn]
        exact Or.inr ⟨[.addMarkdownTag body h.Tag], _, rfl, Or.inl rfl, Or.inl rfl⟩
      · simp only [hn]
        exact Or.inr ⟨[.addMarkdownTag body h.Tag], _, rfl, Or.inl rfl,
          Or.inr ⟨rfl, by simp⟩⟩
    · rw [CommentWithBehavior_hide]
      exact HideAndNewComment_summary h skipNoDiff body s
    · rw [CommentWithBehavior_delete]
      exact DeleteAndNewComment_summary h skipNoDiff body s
  · have hcalls := CommentWithBehavior_invalid_calls sortSlice h skipNoDiff behavior body s hvalid
    have hret : (CommentWithBehavior sortSlice h skipNoDiff behavior body s).ret.1 = false := by
      simp only [not_or] at hvalid
      simp [CommentWithBehavior, hvalid]
    rw [hcalls]
    exact summary_quiet_short _ _ hret (by simp) (fun _ => by simp)

end Lemmas

/-! ## LatestMatchingComment -/

section Latest

variable {σ κ : Type} [Comment κ]

/-- C6: with a sorting routine that meets the contract of `sort.Slice`, when
the search returns an empty list `LatestMatchingComment` returns no comment and
no error; when it returns a non-empty list on which `Less` is a strict total
order, `LatestMatchingComment` returns, with no error, the greatest element of
the list (every other element is `Less` than it), and that element is the only
greatest one. -/
theorem LatestMatchingComment_greatest (sortSlice : SliceSort κ) (h : CommentHandler σ κ)
    (s s1 : σ) (cs : List κ)
    (hsort : SortsSlices sortSlice)
    (hfind : h.PlatformHandler.CallFindMatchingComments s h.Tag = (.ok cs, s1)) :
    (cs = [] → (LatestMatchingComment sortSlice h s).ret = (none, none)) ∧
      (cs ≠ [] → StrictTotalOn Comment.Less cs →
        ∃ m, (LatestMatchingComment sortSlice h s).ret = (some m, none) ∧
          IsGreatest Comment.Less cs m ∧ ∀ m2, IsGreatest Comment.Less cs m2 → m2 = m) := by
  rw [LatestMatchingComment_ok sortSlice h s s1 cs hfind]
  have hperm := (hsort Comment.Less cs).1
  refine ⟨fun hnil => ?_, fun hne hord => ?_⟩
  · subst hnil
    simp [List.Perm.eq_nil hperm]
  · have hone : sortSlice Comment.Less cs ≠ [] := fun e => hne (by
      rw [e] at hperm
      exact (List.Perm.eq_nil hperm.symm))
    have hgreat := getLast_isGreatest hord hperm ((hsort Comment.Less cs).2 hord) hone
    exact ⟨_, by rw [List.getLast?_eq_getLast _ hone], hgreat,
      fun m2 hm2 => IsGreatest.unique hord hgreat hm2⟩

/-- The order by creation stamp is a strict total order on the two example
comments. -/
theorem strictTotalOn_example :
    StrictTotalOn (Comment.Less : PRComment → PRComment → Bool) [costComment, olderComment] := by
  unfold StrictTotalOn
  decide

/-- Witness of C6: among the older comment "c0" and the comment "c1", listed
newest first, the latest is "c1"; on an empty platform there is none. -/
theorem LatestMatchingComment_greatest_witness :
    SortsSlices (insertionSortSlice : SliceSort PRComment) ∧
      icHandler.PlatformHandler.CallFindMatchingComments (memOf [costComment, olderComment])
        icHandler.Tag = (.ok [costComment, olderComment], memOf [costComment, olderComment]) ∧
      [costComment, olderComment] ≠ [] ∧
      StrictTotalOn (Comment.Less : PRComment → PRComment → Bool) [costComment, olderComment] ∧
      (∃ m, (LatestMatchingComment insertionSortSlice icHandler
            (memOf [costComment, olderComment])).ret = (some m, none) ∧
          IsGreatest Comment.Less [costComment, olderComment] m ∧
          ∀ m2, IsGreatest Comment.Less [costComment, olderComment] m2 → m2 = m) ∧
      (LatestMatchingComment insertionSortSlice icHandler
          (memOf [costComment, olderComment])).ret = (some costComment, none) ∧
      (LatestMatchingComment insertionSortSlice icHandler (memOf [])).ret = (none, none) :=
  ⟨sortsSlices_insertionSortSlice, rfl, by decide, strictTotalOn_example,
    (LatestMatchingComment_greatest insertionSortSlice icHandler
      (memOf [costComment, olderComment]) (memOf [costComment, olderComment])
      [costComment, olderComment] sortsSlices_insertionSortSlice rfl).2 (by decide)
      strictTotalOn_example,
    by decide,
    (LatestMatchingComment_greatest insertionSortSlice icHandler (memOf []) (memOf []) []
      sortsSlices_insertionSortSlice rfl).1 rfl⟩

end Latest

/-! ## LatestMatchingComment without an order -/

section Membership

variable {σ κ : Type} [Comment κ]

/-- C22: with no assumption on `Less`, for a sorting routine that only
rearranges the slice: whenever the search succeeds, `LatestMatchingComment`
returns no error, returns no comment exactly when the returned list is empty,
and otherwise returns an element of the returned list; and every comment that
`UpdateComment` passes to an update call is an element of the returned list. -/
theorem LatestMatchingComment_member (sortSlice : SliceSort κ) (h : CommentHandler σ κ)
    (skipNoDiff : Bool) (body : String) (s s1 : σ) (cs : List κ)
    (hperm : ∀ l : List κ, (sortSlice Comment.Less l).Perm l)
    (hfind : h.PlatformHandler.CallFindMatchingComments s h.Tag = (.ok cs, s1)) :
    ∃ r, (LatestMatchingComment sortSlice h s).ret = (r, none) ∧
      (r = none ↔ cs = []) ∧
      (∀ m, r = some m → m ∈ cs) ∧
      ∀ m b, Call.update m b ∈ (UpdateComment sortSlice h skipNoDiff body s).calls →
        m ∈ cs := by
  have hL := LatestMatchingComment_ok sortSlice h s s1 cs hfind
  have hmem : ∀ m, (sortSlice Comment.Less cs).getLast? = some m → m ∈ cs :=
    fun m hm => (hperm cs).mem_iff.mp (List.mem_of_getLast?_eq_some hm)
  refine ⟨(sortSlice Comment.Less cs).getLast?, by rw [hL], ?_, hmem, ?_⟩
  · rw [List.getLast?_eq_none_iff]
    constructor
    · intro hnil
      have hp := hperm cs
      rw [hnil] at hp
      exact List.Perm.eq_nil hp.symm
    · intro hnil
      have hp := hperm cs
      rw [hnil] at hp ⊢
      exact List.Perm.eq_nil hp
  · intro m b hcall
    simp only [UpdateComment, hL] at hcall
    cases hlast : (sortSlice Comment.Less cs).getLast? with
    | none =>
      rw [hlast] at hcall
      cases skipNoDiff with
      | true => simp at hcall
      | false =>
        rcases hc : h.PlatformHandler.CallCreateComment s1
          (h.PlatformHandler.AddMarkdownTag body h.Tag) with ⟨e | c, s2⟩ <;>
          simp [hc] at hcall
    | some latest =>
      rw [hlast] at hcall
      by_cases hb : Comment.Body latest = h.PlatformHandler.AddMarkdownTag body h.Tag
      · simp [hb] at hcall
      · rcases hu : h.PlatformHandler.CallUpdateComment s1 latest
          (h.PlatformHandler.AddMarkdownTag body h.Tag) with ⟨_ | e, s2⟩ <;>
          · simp [hb, hu] at hcall
            rw [hcall.1]
            exact hmem latest hlast

/-- Witness of C22: two comments "a" and "b", returned in this order, whose
`Less` always answers true, sorted by Go's insertion sort: "b" is `Less` than
its left neighbour "a" and is swapped before it, so the comment returned, and
updated, is "a", one of the two. -/
theorem LatestMatchingComment_member_witness :
    (∀ l : List LooseComment, (insertionSortLessFunc Comment.Less l).Perm l) ∧
      (⟨loosePlatform, "ic"⟩ :
          CommentHandler (List LooseComment) LooseComment).PlatformHandler.CallFindMatchingComments
          [⟨"<!--ic-->a"⟩, ⟨"<!--ic-->b"⟩] "ic" =
        (.ok [⟨"<!--ic-->a"⟩, ⟨"<!--ic-->b"⟩], [⟨"<!--ic-->a"⟩, ⟨"<!--ic-->b"⟩]) ∧
      (∃ r, (LatestMatchingComment insertionSortLessFunc
            (⟨loosePlatform, "ic"⟩ : CommentHandler (List LooseComment) LooseComment)
            [⟨"<!--ic-->a"⟩, ⟨"<!--ic-->b"⟩]).ret = (r, none) ∧
          (r = none ↔ ([⟨"<!--ic-->a"⟩, ⟨"<!--ic-->b"⟩] : List LooseComment) = []) ∧
          (∀ m, r = some m → m ∈ ([⟨"<!--ic-->a"⟩, ⟨"<!--ic-->b"⟩] : List LooseComment)) ∧
          ∀ m b, Call.update m b ∈ (UpdateComment insertionSortLessFunc
              (⟨loosePlatform, "ic"⟩ : CommentHandler (List LooseComment) LooseComment)
              false "c" [⟨"<!--ic-->a"⟩, ⟨"<!--ic-->b"⟩]).calls →
            m ∈ ([⟨"<!--ic-->a"⟩, ⟨"<!--ic-->b"⟩] : List LooseComment)) ∧
      insertionSortLessFunc Comment.Less
          ([⟨"<!--ic-->a"⟩, ⟨"<!--ic-->b"⟩] : List LooseComment) =
        [⟨"<!--ic-->b"⟩, ⟨"<!--ic-->a"⟩] ∧
      (LatestMatchingComment insertionSortLessFunc
          (⟨loosePlatform, "ic"⟩ : CommentHandler (List LooseComment) LooseComment)
          [⟨"<!--ic-->a"⟩, ⟨"<!--ic-->b"⟩]).ret = (some ⟨"<!--ic-->a"⟩, none) ∧
      (UpdateComment insertionSortLessFunc
          (⟨loosePlatform, "ic"⟩ : CommentHandler (List LooseComment) LooseComment)
          false "c" [⟨"<!--ic-->a"⟩, ⟨"<!--ic-->b"⟩]).calls =
        [.addMarkdownTag "c" "ic", .findMatching "ic",
         .update ⟨"<!--ic-->a"⟩ "<!--ic-->c"] :=
  ⟨perm_insertionSortLessFunc Comment.Less, rfl,
    LatestMatchingComment_member insertionSortLessFunc
      (⟨loosePlatform, "ic"⟩ : CommentHandler (List LooseComment) LooseComment) false "c"
      [⟨"<!--ic-->a"⟩, ⟨"<!--ic-->b"⟩] [⟨"<!--ic-->a"⟩, ⟨"<!--ic-->b"⟩]
      [⟨"<!--ic-->a"⟩, ⟨"<!--ic-->b"⟩] (perm_insertionSortLessFunc Comment.Less) rfl,
    by decide, by decide, by decide⟩

end Membership

/-! ## UpdateComment -/

section Update

variable {σ κ : Type} [Comment κ]

/-- C1: when the search succeeds and the comment that sorting by `Less` puts
last (the latest one) has a body different from the tagged body, and the update
call succeeds, `UpdateComment` tags the body, searches once, issues exactly one
update call, on that latest comment with the tagged body, issues no create
call, and returns `(true, nil)`, whatever `skipNoDiff` is. (A list with a
latest comment is non-empty for every sorting routine that rearranges.) -/
theorem UpdateComment_updates_latest (sortSlice : SliceSort κ) (h : CommentHandler σ κ)
    (skipNoDiff : Bool) (body : String) (s s1 s2 : σ) (cs : List κ) (m : κ)
    (hfind : h.PlatformHandler.CallFindMatchingComments s h.Tag = (.ok cs, s1))
    (hlatest : (sortSlice Comment.Less cs).getLast? = some m)
    (hbody : Comment.Body m ≠ h.PlatformHandler.AddMarkdownTag body h.Tag)
    (hupdate : h.PlatformHandler.CallUpdateComment s1 m
      (h.PlatformHandler.AddMarkdownTag body h.Tag) = (none, s2)) :
    UpdateComment sortSlice h skipNoDiff body s =
        ⟨(true, none), s2,
          [.addMarkdownTag body h.Tag, .findMatching h.Tag,
           .update m (h.PlatformHandler.AddMarkdownTag body h.Tag)]⟩ ∧
      (UpdateComment sortSlice h skipNoDiff body s).calls.filter Call.isUpdate =
        [.update m (h.PlatformHandler.AddMarkdownTag body h.Tag)] ∧
      (UpdateComment sortSlice h skipNoDiff body s).calls.filter Call.isCreate = [] := by
  have hrun : UpdateComment sortSlice h skipNoDiff body s =
      ⟨(true, none), s2,
        [.addMarkdownTag body h.Tag, .findMatching h.Tag,
         .update m (h.PlatformHandler.AddMarkdownTag body h.Tag)]⟩ := by
    simp [UpdateComment, LatestMatchingComment_ok sortSlice h s s1 cs hfind, hlatest, hbody,
      hupdate]
  refine ⟨hrun, ?_, ?_⟩ <;> simp [hrun, Call.isUpdate, Call.isCreate]

/-- C2: when the search succeeds and the latest comment has exactly the tagged
body, `UpdateComment` returns `(false, nil)` after tagging the body and
searching once: it issues no update, create, delete or hide call and leaves the
platform in the state the search left it in, whatever `skipNoDiff` is. -/
theorem UpdateComment_same_body_noop (sortSlice : SliceSort κ) (h : CommentHandler σ κ)
    (skipNoDiff : Bool) (body : String) (s s1 : σ) (cs : List κ) (m : κ)
    (hfind : h.PlatformHandler.CallFindMatchingComments s h.Tag = (.ok cs, s1))
    (hlatest : (sortSlice Comment.Less cs).getLast? = some m)
    (hbody : Comment.Body m = h.PlatformHandler.AddMarkdownTag body h.Tag) :
    UpdateComment sortSlice h skipNoDiff body s =
        ⟨(false, none), s1, [.addMarkdownTag body h.Tag, .findMatching h.Tag]⟩ ∧
      ∀ c ∈ (UpdateComment sortSlice h skipNoDiff body s).calls,
        c.isUpdate = false ∧ c.isCreate = false ∧ c.isDelete = false ∧ c.isHide = false := by
  have hrun : UpdateComment sortSlice h skipNoDiff body s =
      ⟨(false, none), s1, [.addMarkdownTag body h.Tag, .findMatching h.Tag]⟩ := by
    simp [UpdateComment, LatestMatchingComment_ok sortSlice h s s1 cs hfind, hlatest, hbody]
  refine ⟨hrun, ?_⟩
  simp [hrun, Call.isUpdate, Call.isCreate, Call.isDelete, Call.isHide]

/-- C3: when the search succeeds with an empty list, `skipNoDiff` is false and
the create call succeeds, `UpdateComment` issues exactly one create call, with
the tagged body, issues no update call, and returns `(true, nil)`. The sorting
routine is only asked to rearrange the empty slice into itself. -/
theorem UpdateComment_creates_first (sortSlice : SliceSort κ) (h : CommentHandler σ κ)
    (body : String) (s s1 s2 : σ) (c : κ)
    (hsort : sortSlice Comment.Less ([] : List κ) = [])
    (hfind : h.PlatformHandler.CallFindMatchingComments s h.Tag = (.ok [], s1))
    (hcreate : h.PlatformHandler.CallCreateComment s1
      (h.PlatformHandler.AddMarkdownTag body h.Tag) = (.ok c, s2)) :
    UpdateComment sortSlice h false body s =
        ⟨(true, none), s2,
          [.addMarkdownTag body h.Tag, .findMatching h.Tag,
           .create (h.PlatformHandler.AddMarkdownTag body h.Tag)]⟩ ∧
      (UpdateComment sortSlice h false body s).calls.filter Call.isCreate =
        [.create (h.PlatformHandler.AddMarkdownTag body h.Tag)] ∧
      (UpdateComment sortSlice h false body s).calls.filter Call.isUpdate = [] := by
  have hrun : UpdateComment sortSlice h false body s =
      ⟨(true, none), s2,
        [.addMarkdownTag body h.Tag, .findMatching h.Tag,
         .create (h.PlatformHandler.AddMarkdownTag body h.Tag)]⟩ := by
    simp [UpdateComment, LatestMatchingComment_ok sortSlice h s s1 [] hfind, hsort, hcreate]
  refine ⟨hrun, ?_, ?_⟩ <;> simp [hrun, Call.isUpdate, Call.isCreate]

/-- C4: when the search succeeds with an empty list and `skipNoDiff` is true,
`UpdateComment` returns `(false, nil)` and issues no create, update, delete or
hide call. -/
theorem UpdateComment_skips_first (sortSlice : SliceSort κ) (h : CommentHandler σ κ)
    (body : String) (s s1 : σ)
    (hsort : sortSlice Comment.Less ([] : List κ) = [])
    (hfind : h.PlatformHandler.CallFindMatchingComments s h.Tag = (.ok [], s1)) :
    UpdateComment sortSlice h true body s =
        ⟨(false, none), s1, [.addMarkdownTag body h.Tag, .findMatching h.Tag]⟩ ∧
      ∀ c ∈ (UpdateComment sortSlice h true body s).calls,
        c.isCreate = false ∧ c.isUpdate = false ∧ c.isDelete = false ∧ c.isHide = false := by
  have hrun : UpdateComment sortSlice h true body s =
      ⟨(false, none), s1, [.addMarkdownTag body h.Tag, .findMatching h.Tag]⟩ := by
    simp [UpdateComment, LatestMatchingComment_ok sortSlice h s s1 [] hfind, hsort]
  refine ⟨hrun, ?_⟩
  simp [hrun, Call.isUpdate, Call.isCreate, Call.isDelete, Call.isHide]

/-- Witness of C1 (scenario B of the specification): the older comment is
listed last, the comment "c1" is the latest, and the candidate body differs. -/
theorem UpdateComment_updates_latest_witness :
    icHandler.PlatformHandler.CallFindMatchingComments (memOf [costComment, olderComment])
        icHandler.Tag = (.ok [costComment, olderComment], memOf [costComment, olderComment]) ∧
      (insertionSortSlice Comment.Less [costComment, olderComment]).getLast? = some costComment ∧
      Comment.Body costComment ≠ icHandler.PlatformHandler.AddMarkdownTag "Cost: $20" icHandler.Tag ∧
      icHandler.PlatformHandler.CallUpdateComment (memOf [costComment, olderComment]) costComment
          (icHandler.PlatformHandler.AddMarkdownTag "Cost: $20" icHandler.Tag) =
        (none, memOf [{ costComment with body := "<!--ic-->Cost: $20" }, olderComment]) ∧
      UpdateComment insertionSortSlice icHandler true "Cost: $20"
          (memOf [costComment, olderComment]) =
        ⟨(true, none), memOf [{ costComment with body := "<!--ic-->Cost: $20" }, olderComment],
          [.addMarkdownTag "Cost: $20" "ic", .findMatching "ic",
           .update costComment "<!--ic-->Cost: $20"]⟩ :=
  ⟨rfl, by decide, by decide, rfl,
    (UpdateComment_updates_latest insertionSortSlice icHandler true "Cost: $20"
      (memOf [costComment, olderComment])
      (memOf [costComment, olderComment])
      (memOf [{ costComment with body := "<!--ic-->Cost: $20" }, olderComment])
      [costComment, olderComment] costComment rfl (by decide) (by decide) rfl).1⟩

/-- Witness of C2 (scenario A of the specification): tag "ic", existing body
"<!--ic-->Cost: $10", candidate body "Cost: $10". -/
theorem UpdateComment_same_body_noop_witness :
    icHandler.PlatformHandler.CallFindMatchingComments (memOf [costComment]) icHandler.Tag =
        (.ok [costComment], memOf [costComment]) ∧
      (insertionSortSlice Comment.Less [costComment]).getLast? = some costComment ∧
      Comment.Body costComment =
        icHandler.PlatformHandler.AddMarkdownTag "Cost: $10" icHandler.Tag ∧
      UpdateComment insertionSortSlice icHandler false "Cost: $10" (memOf [costComment]) =
        ⟨(false, none), memOf [costComment],
          [.addMarkdownTag "Cost: $10" "ic", .findMatching "ic"]⟩ :=
  ⟨rfl, rfl, rfl,
    (UpdateComment_same_body_noop insertionSortSlice icHandler false "Cost: $10"
      (memOf [costComment]) (memOf [costComment]) [costComment] costComment rfl rfl rfl).1⟩

/-- Witness of C3: no comment yet, `skipNoDiff` false. -/
theorem UpdateComment_creates_first_witness :
    insertionSortSlice Comment.Less ([] : List PRComment) = [] ∧
      icHandler.PlatformHandler.CallFindMatchingComments (memOf []) icHandler.Tag =
        (.ok [], memOf []) ∧
      icHandler.PlatformHandler.CallCreateComment (memOf [])
          (icHandler.PlatformHandler.AddMarkdownTag "Cost: $10" icHandler.Tag) =
        (.ok ⟨"<!--ic-->Cost: $10", "new", 1, false⟩,
          memOf [⟨"<!--ic-->Cost: $10", "new", 1, false⟩]) ∧
      UpdateComment insertionSortSlice icHandler false "Cost: $10" (memOf []) =
        ⟨(true, none), memOf [⟨"<!--ic-->Cost: $10", "new", 1, false⟩],
          [.addMarkdownTag "Cost: $10" "ic", .findMatching "ic",
           .create "<!--ic-->Cost: $10"]⟩ :=
  ⟨rfl, rfl, rfl,
    (UpdateComment_creates_first insertionSortSlice icHandler "Cost: $10" (memOf [])
      (memOf []) (memOf [⟨"<!--ic-->Cost: $10", "new", 1, false⟩])
      ⟨"<!--ic-->Cost: $10", "new", 1, false⟩ rfl rfl rfl).1⟩

/-- Witness of C4 (scenario C of the specification): no comment yet,
`skipNoDiff` true. -/
theorem UpdateComment_skips_first_witness :
    insertionSortSlice Comment.Less ([] : List PRComment) = [] ∧
      icHandler.PlatformHandler.CallFindMatchingComments (memOf []) icHandler.Tag =
        (.ok [], memOf []) ∧
      UpdateComment insertionSortSlice icHandler true "Cost: $10" (memOf []) =
        ⟨(false, none), memOf [], [.addMarkdownTag "Cost: $10" "ic", .findMatching "ic"]⟩ :=
  ⟨rfl, rfl,
    (UpdateComment_skips_first insertionSortSlice icHandler "Cost: $10" (memOf []) (memOf [])
      rfl rfl).1⟩

/-- C20, as stated, fails: in scenario A of the specification (tag "ic",
existing body "<!--ic-->Cost: $10", candidate body "Cost: $10") the latest
matching comment has exactly the tagged body, yet the trace of `Call*`
invocations of `UpdateComment` is not empty: it holds the search. -/
theorem UpdateComment_noop_trace_not_empty :
    icHandler.PlatformHandler.CallFindMatchingComments (memOf [costComment]) icHandler.Tag =
        (.ok [costComment], memOf [costComment]) ∧
      (insertionSortSlice Comment.Less [costComment]).getLast? = some costComment ∧
      Comment.Body costComment =
        icHandler.PlatformHandler.AddMarkdownTag "Cost: $10" icHandler.Tag ∧
      (UpdateComment insertionSortSlice icHandler false "Cost: $10"
        (memOf [costComment])).calls.filter Call.isCapability = [.findMatching "ic"] ∧
      (UpdateComment insertionSortSlice icHandler false "Cost: $10"
        (memOf [costComment])).calls.filter Call.isCapability ≠ [] :=
  ⟨rfl, rfl, rfl, by decide, by decide⟩

/-- C20, amended: when the search succeeds and the latest matching comment has
exactly the tagged body, the `Call*` invocations of `UpdateComment` are exactly
one search with the handler tag: no create, update, delete or hide call is
made, and the result is `(false, nil)`. -/
theorem UpdateComment_noop_only_searches (sortSlice : SliceSort κ) (h : CommentHandler σ κ)
    (skipNoDiff : Bool) (body : String) (s s1 : σ) (cs : List κ) (m : κ)
    (hfind : h.PlatformHandler.CallFindMatchingComments s h.Tag = (.ok cs, s1))
    (hlatest : (sortSlice Comment.Less cs).getLast? = some m)
    (hbody : Comment.Body m = h.PlatformHandler.AddMarkdownTag body h.Tag) :
    (UpdateComment sortSlice h skipNoDiff body s).calls.filter Call.isCapability =
        [.findMatching h.Tag] ∧
      (UpdateComment sortSlice h skipNoDiff body s).ret = (false, none) := by
  simp [UpdateComment, LatestMatchingComment_ok sortSlice h s s1 cs hfind, hlatest, hbody,
    Call.isCapability]

/-- Witness of C20 as amended: two comments, the latest one already carries the
tagged body, `skipNoDiff` true. -/
theorem UpdateComment_noop_only_searches_witness :
    icHandler.PlatformHandler.CallFindMatchingComments (memOf [costComment, olderComment])
        icHandler.Tag = (.ok [costComment, olderComment], memOf [costComment, olderComment]) ∧
      (insertionSortSlice Comment.Less [costComment, olderComment]).getLast? = some costComment ∧
      Comment.Body costComment =
        icHandler.PlatformHandler.AddMarkdownTag "Cost: $10" icHandler.Tag ∧
      (UpdateComment insertionSortSlice icHandler true "Cost: $10"
        (memOf [costComment, olderComment])).calls.filter Call.isCapability =
        [.findMatching "ic"] ∧
      (UpdateComment insertionSortSlice icHandler true "Cost: $10"
        (memOf [costComment, olderComment])).ret = (false, none) :=
  ⟨rfl, by decide, rfl,
    UpdateComment_noop_only_searches insertionSortSlice icHandler true "Cost: $10"
      (memOf [costComment, olderComment]) (memOf [costComment, olderComment])
      [costComment, olderComment] costComment rfl (by decide) rfl⟩

end Update

/-! ## HideAndNewComment -/

section Hide

variable {σ κ : Type} [Comment κ]

/-- C7: when the search returns `k` hidden and `m` visible comments, with
`k + m > 0` or `skipNoDiff` false, and every hide call and the create call
succeed, `HideAndNewComment` searches once, then hides the visible comments,
one call each, in the order of the returned list (so exactly `m` hide calls and
none on a hidden comment), then tags the body and issues exactly one create
call with the tagged body, and returns `(true, nil)`. -/
theorem HideAndNewComment_hides_visible_then_creates (h : CommentHandler σ κ)
    (skipNoDiff : Bool) (body : String) (s s1 s2 : σ) (cs : List κ) (c : κ) (k m : Nat)
    (hfind : h.PlatformHandler.CallFindMatchingComments s h.Tag = (.ok cs, s1))
    (hk : cs.countP (fun x => Comment.IsHidden x) = k)
    (hm : cs.countP (fun x => !Comment.IsHidden x) = m)
    (hgate : k + m > 0 ∨ skipNoDiff = false)
    (hhide : ∀ pre v post, cs.filter (fun x => !Comment.IsHidden x) = pre ++ v :: post →
      (h.PlatformHandler.CallHideComment
        (stateAfter h.PlatformHandler.CallHideComment s1 pre) v).1 = none)
    (hcreate : h.PlatformHandler.CallCreateComment
      (stateAfter h.PlatformHandler.CallHideComment s1
        (cs.filter (fun x => !Comment.IsHidden x)))
      (h.PlatformHandler.AddMarkdownTag body h.Tag) = (.ok c, s2)) :
    HideAndNewComment h skipNoDiff body s =
        ⟨(true, none), s2,
          .findMatching h.Tag :: (cs.filter (fun x => !Comment.IsHidden x)).map Call.hide ++
            [.addMarkdownTag body h.Tag,
             .create (h.PlatformHandler.AddMarkdownTag body h.Tag)]⟩ ∧
      (HideAndNewComment h skipNoDiff body s).calls.countP Call.isHide = m ∧
      (∀ x, Call.hide x ∈ (HideAndNewComment h skipNoDiff body s).calls →
        x ∈ cs ∧ Comment.IsHidden x = false) ∧
      (HideAndNewComment h skipNoDiff body s).calls.filter Call.isCreate =
        [.create (h.PlatformHandler.AddMarkdownTag body h.Tag)] := by
  have hgate2 : (decide (cs.length = 0) && skipNoDiff) = false := by
    rcases hgate with hpos | hskip
    · have hlen : cs.length = k + m := by
        rw [← hk, ← hm]
        exact length_eq_countP_add_countP_not (fun x => Comment.IsHidden x) cs
      have : cs.length ≠ 0 := by omega
      simp [this]
    · simp [hskip]
  have hrun : HideAndNewComment h skipNoDiff body s =
      ⟨(true, none), s2,
        .findMatching h.Tag :: (cs.filter (fun x => !Comment.IsHidden x)).map Call.hide ++
          [.addMarkdownTag body h.Tag,
           .create (h.PlatformHandler.AddMarkdownTag body h.Tag)]⟩ := by
    simp only [HideAndNewComment, matchingComments_ok h s s1 cs hfind, hgate2, hideComments,
      rangeComments_all_ok h.PlatformHandler.CallHideComment Call.hide _ s1 hhide,
      NewComment_ok h body _ s2 c hcreate]
    simp
  refine ⟨hrun, ?_, ?_, ?_⟩
  · rw [hrun, ← hm]
    simp only [List.countP_cons, List.countP_append, countP_isHide_map_hide]
    simp [Call.isHide, List.countP_eq_length_filter]
  · intro x hx
    rw [hrun] at hx
    simpa using hx
  · rw [hrun]
    simp [List.filter_cons, filter_isCreate_map_hide, Call.isCreate]

/-- C8: when the hide call on the visible comment `v` is the first one that
fails, with error `e`, `HideAndNewComment` has searched once and issued the
hide calls on the visible comments up to and including `v`, in order, and
nothing after; it issues no create call and returns `(false, err)` with `err`
the result of `newPlatformError` on `e`, an error that wraps `e`. -/
theorem HideAndNewComment_stops_at_first_failure (h : CommentHandler σ κ)
    (skipNoDiff : Bool) (body : String) (s s1 s2 : σ) (cs pre post : List κ) (v : κ)
    (e : GoError)
    (hfind : h.PlatformHandler.CallFindMatchingComments s h.Tag = (.ok cs, s1))
    (hsplit : cs.filter (fun x => !Comment.IsHidden x) = pre ++ v :: post)
    (hpre : ∀ p u q, pre = p ++ u :: q →
      (h.PlatformHandler.CallHideComment
        (stateAfter h.PlatformHandler.CallHideComment s1 p) u).1 = none)
    (hfail : h.PlatformHandler.CallHideComment
      (stateAfter h.PlatformHandler.CallHideComment s1 pre) v = (some e, s2)) :
    HideAndNewComment h skipNoDiff body s =
        ⟨(false, newPlatformError (some e)), s2,
          .findMatching h.Tag :: (pre ++ [v]).map Call.hide⟩ ∧
      (HideAndNewComment h skipNoDiff body s).calls.filter Call.isCreate = [] ∧
      ∃ w, newPlatformError (some e) = some w ∧ w.Unwrap = some e := by
  have hgate2 : (decide (cs.length = 0) && skipNoDiff) = false := by
    have : cs ≠ [] := by
      intro hnil
      rw [hnil] at hsplit
      simp at hsplit
    simp [this]
  have hrun : HideAndNewComment h skipNoDiff body s =
      ⟨(false, newPlatformError (some e)), s2,
        .findMatching h.Tag :: (pre ++ [v]).map Call.hide⟩ := by
    simp only [HideAndNewComment, matchingComments_ok h s s1 cs hfind, hgate2, hideComments,
      hsplit,
      rangeComments_first_failure h.PlatformHandler.CallHideComment Call.hide v post e s2 pre s1
        hpre hfail]
    simp [newPlatformError]
  refine ⟨hrun, ?_, newPlatformError_unwrap e⟩
  rw [hrun]
  simp [List.filter_cons, filter_isCreate_map_hide, Call.isCreate]

/-- On the in-memory platform hiding never changes which comments are broken. -/
theorem mem_stateAfter_hide_broken (l : List PRComment) :
    ∀ s : Mem, (stateAfter memPlatform.CallHideComment s l).broken = s.broken := by
  induction l with
  | nil => intro s; rfl
  | cons c cs ih =>
    intro s
    rw [stateAfter_cons, ih]
    simp only [memPlatform]
    split <;> rfl

/-- On the in-memory platform hiding succeeds when no comment is broken. -/
theorem mem_hide_ok (s : Mem) (c : PRComment) (hb : s.broken = []) :
    (memPlatform.CallHideComment s c).1 = none := by
  simp [memPlatform, hb]

/-- Witness of C7: one hidden and two visible comments, `skipNoDiff` true; the
two visible comments are hidden in the order of the list, then the new comment
is created. -/
theorem HideAndNewComment_hides_visible_then_creates_witness :
    icHandler.PlatformHandler.CallFindMatchingComments
        (memOf [hiddenComment, costComment, olderComment]) icHandler.Tag =
        (.ok [hiddenComment, costComment, olderComment],
          memOf [hiddenComment, costComment, olderComment]) ∧
      [hiddenComment, costComment, olderComment].countP (fun x => Comment.IsHidden x) = 1 ∧
      [hiddenComment, costComment, olderComment].countP (fun x => !Comment.IsHidden x) = 2 ∧
      (1 + 2 > 0 ∨ true = false) ∧
      (∀ pre v post,
        [hiddenComment, costComment, olderComment].filter (fun x => !Comment.IsHidden x) =
          pre ++ v :: post →
        (icHandler.PlatformHandler.CallHideComment
          (stateAfter icHandler.PlatformHandler.CallHideComment
            (memOf [hiddenComment, costComment, olderComment]) pre) v).1 = none) ∧
      icHandler.PlatformHandler.CallCreateComment
          (stateAfter icHandler.PlatformHandler.CallHideComment
            (memOf [hiddenComment, costComment, olderComment])
            ([hiddenComment, costComment, olderComment].filter
              (fun x => !Comment.IsHidden x)))
          (icHandler.PlatformHandler.AddMarkdownTag "Cost: $20" icHandler.Tag) =
        (.ok ⟨"<!--ic-->Cost: $20", "new", 3, false⟩,
          memOf [hiddenComment, { costComment with hidden := true },
            { olderComment with hidden := true }, ⟨"<!--ic-->Cost: $20", "new", 3, false⟩]) ∧
      HideAndNewComment icHandler true "Cost: $20"
          (memOf [hiddenComment, costComment, olderComment]) =
        ⟨(true, none),
          memOf [hiddenComment, { costComment with hidden := true },
            { olderComment with hidden := true }, ⟨"<!--ic-->Cost: $20", "new", 3, false⟩],
          [.findMatching "ic", .hide costComment, .hide olderComment,
           .addMarkdownTag "Cost: $20" "ic", .create "<!--ic-->Cost: $20"]⟩ :=
  have hhide : ∀ pre v post,
      [hiddenComment, costComment, olderComment].filter (fun x => !Comment.IsHidden x) =
        pre ++ v :: post →
      (icHandler.PlatformHandler.CallHideComment
        (stateAfter icHandler.PlatformHandler.CallHideComment
          (memOf [hiddenComment, costComment, olderComment]) pre) v).1 = none := by
    intro pre v post _
    exact mem_hide_ok _ v (mem_stateAfter_hide_broken pre _)
  ⟨rfl, by decide, by decide, Or.inl (by decide), hhide, by rfl,
    (HideAndNewComment_hides_visible_then_creates icHandler true "Cost: $20"
      (memOf [hiddenComment, costComment, olderComment])
      (memOf [hiddenComment, costComment, olderComment])
      (memOf [hiddenComment, { costComment with hidden := true },
        { olderComment with hidden := true }, ⟨"<!--ic-->Cost: $20", "new", 3, false⟩])
      [hiddenComment, costComment, olderComment] ⟨"<!--ic-->Cost: $20", "new", 3, false⟩ 1 2
      rfl (by decide) (by decide) (Or.inl (by decide)) hhide (by rfl)).1⟩

/-- Witness of C8: hiding is not supported for the comment "c0"; the visible
comment before it is hidden, the one after it is not touched, nothing is
created. -/
theorem HideAndNewComment_stops_at_first_failure_witness :
    icHandler.PlatformHandler.CallFindMatchingComments
        (memBroken [costComment, hiddenComment, olderComment]) icHandler.Tag =
        (.ok [costComment, hiddenComment, olderComment],
          memBroken [costComment, hiddenComment, olderComment]) ∧
      [costComment, hiddenComment, olderComment].filter (fun x => !Comment.IsHidden x) =
        [costComment] ++ olderComment :: [] ∧
      (∀ p u q, [costComment] = p ++ u :: q →
        (icHandler.PlatformHandler.CallHideComment
          (stateAfter icHandler.PlatformHandler.CallHideComment
            (memBroken [costComment, hiddenComment, olderComment]) p) u).1 = none) ∧
      icHandler.PlatformHandler.CallHideComment
          (stateAfter icHandler.PlatformHandler.CallHideComment
            (memBroken [costComment, hiddenComment, olderComment]) [costComment])
          olderComment =
        (some (.plain "hide not supported"),
          memBroken [{ costComment with hidden := true }, hiddenComment, olderComment]) ∧
      HideAndNewComment icHandler false "Cost: $20"
          (memBroken [costComment, hiddenComment, olderComment]) =
        ⟨(false, newPlatformError (some (.plain "hide not supported"))),
          memBroken [{ costComment with hidden := true }, hiddenComment, olderComment],
          [.findMatching "ic", .hide costComment, .hide olderComment]⟩ :=
  have hpre : ∀ p u q, [costComment] = p ++ u :: q →
      (icHandler.PlatformHandler.CallHideComment
        (stateAfter icHandler.PlatformHandler.CallHideComment
          (memBroken [costComment, hiddenComment, olderComment]) p) u).1 = none := by
    intro p u q hs
    rcases p with _ | ⟨a, p⟩
    · simp only [List.nil_append, List.cons.injEq] at hs
      obtain ⟨rfl, _⟩ := hs
      decide
    · simp at hs
  ⟨rfl, by decide, hpre, by rfl,
    (HideAndNewComment_stops_at_first_failure icHandler false "Cost: $20"
      (memBroken [costComment, hiddenComment, olderComment])
      (memBroken [costComment, hiddenComment, olderComment])
      (memBroken [{ costComment with hidden := true }, hiddenComment, olderComment])
      [costComment, hiddenComment, olderComment] [costComment] [] olderComment
      (.plain "hide not supported") rfl (by decide) hpre (by rfl)).1⟩

end Hide

/-! ## DeleteAndNewComment -/

section Delete

variable {σ κ : Type}

/-- C9: when the search returns `n` comments, with `n > 0` or `skipNoDiff`
false, and every delete call and the create call succeed,
`DeleteAndNewComment` searches once, then deletes every returned comment,
hidden or not, one call each in the returned order (exactly `n` delete calls),
then tags the body and issues exactly one create call with the tagged body; it
issues no hide call and returns `(true, nil)`. -/
theorem DeleteAndNewComment_deletes_all_then_creates (h : CommentHandler σ κ)
    (skipNoDiff : Bool) (body : String) (s s1 s2 : σ) (cs : List κ) (c : κ) (n : Nat)
    (hfind : h.PlatformHandler.CallFindMatchingComments s h.Tag = (.ok cs, s1))
    (hn : cs.length = n)
    (hgate : n > 0 ∨ skipNoDiff = false)
    (hdelete : ∀ pre v post, cs = pre ++ v :: post →
      (h.PlatformHandler.CallDeleteComment
        (stateAfter h.PlatformHandler.CallDeleteComment s1 pre) v).1 = none)
    (hcreate : h.PlatformHandler.CallCreateComment
      (stateAfter h.PlatformHandler.CallDeleteComment s1 cs)
      (h.PlatformHandler.AddMarkdownTag body h.Tag) = (.ok c, s2)) :
    DeleteAndNewComment h skipNoDiff body s =
        ⟨(true, none), s2,
          .findMatching h.Tag :: cs.map Call.delete ++
            [.addMarkdownTag body h.Tag,
             .create (h.PlatformHandler.AddMarkdownTag body h.Tag)]⟩ ∧
      (DeleteAndNewComment h skipNoDiff body s).calls.countP Call.isDelete = n ∧
      (DeleteAndNewComment h skipNoDiff body s).calls.filter Call.isCreate =
        [.create (h.PlatformHandler.AddMarkdownTag body h.Tag)] ∧
      (DeleteAndNewComment h skipNoDiff body s).calls.filter Call.isHide = [] := by
  have hgate2 : (decide (cs.length = 0) && skipNoDiff) = false := by
    rcases hgate with hpos | hskip
    · have : cs.length ≠ 0 := by omega
      simp [this]
    · simp [hskip]
  have hrun : DeleteAndNewComment h skipNoDiff body s =
      ⟨(true, none), s2,
        .findMatching h.Tag :: cs.map Call.delete ++
          [.addMarkdownTag body h.Tag,
           .create (h.PlatformHandler.AddMarkdownTag body h.Tag)]⟩ := by
    simp only [DeleteAndNewComment, matchingComments_ok h s s1 cs hfind, hgate2, deleteComments,
      rangeComments_all_ok h.PlatformHandler.CallDeleteComment Call.delete _ s1 hdelete,
      NewComment_ok h body _ s2 c hcreate]
    simp
  refine ⟨hrun, ?_, ?_, ?_⟩
  · rw [hrun, ← hn]
    simp only [List.countP_cons, List.countP_append, countP_isDelete_map_delete]
    simp [Call.isDelete]
  · rw [hrun]
    simp [List.filter_cons, filter_isCreate_map_delete, Call.isCreate]
  · rw [hrun]
    simp [List.filter_cons, filter_isHide_map_delete, Call.isHide]

/-- C10: when the delete call on the comment `v` is the first one that fails,
with error `e`, `DeleteAndNewComment` has searched once and issued the delete
calls on the returned comments up to and including `v`, in order, and nothing
after: no create call and no call that restores the comments deleted before;
the platform is left in the state the failing call left it in, and the result
is `(false, err)` with `err` the result of `newPlatformError` on `e`. -/
theorem DeleteAndNewComment_stops_at_first_failure (h : CommentHandler σ κ)
    (skipNoDiff : Bool) (body : String) (s s1 s2 : σ) (pre post : List κ) (v : κ)
    (e : GoError)
    (hfind : h.PlatformHandler.CallFindMatchingComments s h.Tag = (.ok (pre ++ v :: post), s1))
    (hpre : ∀ p u q, pre = p ++ u :: q →
      (h.PlatformHandler.CallDeleteComment
        (stateAfter h.PlatformHandler.CallDeleteComment s1 p) u).1 = none)
    (hfail : h.PlatformHandler.CallDeleteComment
      (stateAfter h.PlatformHandler.CallDeleteComment s1 pre) v = (some e, s2)) :
    DeleteAndNewComment h skipNoDiff body s =
        ⟨(false, newPlatformError (some e)), s2,
          .findMatching h.Tag :: (pre ++ [v]).map Call.delete⟩ ∧
      (DeleteAndNewComment h skipNoDiff body s).calls.filter Call.isCreate = [] := by
  have hrun : DeleteAndNewComment h skipNoDiff body s =
      ⟨(false, newPlatformError (some e)), s2,
        .findMatching h.Tag :: (pre ++ [v]).map Call.delete⟩ := by
    simp only [DeleteAndNewComment, matchingComments_ok h s s1 _ hfind, deleteComments,
      rangeComments_first_failure h.PlatformHandler.CallDeleteComment Call.delete v post e s2
        pre s1 hpre hfail]
    simp [newPlatformError]
  refine ⟨hrun, ?_⟩
  rw [hrun]
  simp [List.filter_cons, filter_isCreate_map_delete, Call.isCreate]

/-- On the in-memory platform deleting never changes which comments are
broken. -/
theorem mem_stateAfter_delete_broken (l : List PRComment) :
    ∀ s : Mem, (stateAfter memPlatform.CallDeleteComment s l).broken = s.broken := by
  induction l with
  | nil => intro s; rfl
  | cons c cs ih =>
    intro s
    rw [stateAfter_cons, ih]
    simp only [memPlatform]
    split <;> rfl

/-- On the in-memory platform deleting succeeds when no comment is broken. -/
theorem mem_delete_ok (s : Mem) (c : PRComment) (hb : s.broken = []) :
    (memPlatform.CallDeleteComment s c).1 = none := by
  simp [memPlatform, hb]

/-- Witness of C9: three comments, one of them hidden, `skipNoDiff` true; all
three are deleted in the order of the list, then the new comment is created. -/
theorem DeleteAndNewComment_deletes_all_then_creates_witness :
    icHandler.PlatformHandler.CallFindMatchingComments
        (memOf [hiddenComment, costComment, olderComment]) icHandler.Tag =
        (.ok [hiddenComment, costComment, olderComment],
          memOf [hiddenComment, costComment, olderComment]) ∧
      [hiddenComment, costComment, olderComment].length = 3 ∧
      (3 > 0 ∨ true = false) ∧
      (∀ pre v post, [hiddenComment, costComment, olderComment] = pre ++ v :: post →
        (icHandler.PlatformHandler.CallDeleteComment
          (stateAfter icHandler.PlatformHandler.CallDeleteComment
            (memOf [hiddenComment, costComment, olderComment]) pre) v).1 = none) ∧
      icHandler.PlatformHandler.CallCreateComment
          (stateAfter icHandler.PlatformHandler.CallDeleteComment
            (memOf [hiddenComment, costComment, olderComment])
            [hiddenComment, costComment, olderComment])
          (icHandler.PlatformHandler.AddMarkdownTag "Cost: $20" icHandler.Tag) =
        (.ok ⟨"<!--ic-->Cost: $20", "new", 1, false⟩,
          memOf [⟨"<!--ic-->Cost: $20", "new", 1, false⟩]) ∧
      DeleteAndNewComment icHandler true "Cost: $20"
          (memOf [hiddenComment, costComment, olderComment]) =
        ⟨(true, none), memOf [⟨"<!--ic-->Cost: $20", "new", 1, false⟩],
          [.findMatching "ic", .delete hiddenComment, .delete costComment,
           .delete olderComment, .addMarkdownTag "Cost: $20" "ic",
           .create "<!--ic-->Cost: $20"]⟩ :=
  have hdelete : ∀ pre v post, [hiddenComment, costComment, olderComment] = pre ++ v :: post →
      (icHandler.PlatformHandler.CallDeleteComment
        (stateAfter icHandler.PlatformHandler.CallDeleteComment
          (memOf [hiddenComment, costComment, olderComment]) pre) v).1 = none := by
    intro pre v post _
    exact mem_delete_ok _ v (mem_stateAfter_delete_broken pre _)
  ⟨rfl, rfl, Or.inl (by decide), hdelete, by rfl,
    (DeleteAndNewComment_deletes_all_then_creates icHandler true "Cost: $20"
      (memOf [hiddenComment, costComment, olderComment])
      (memOf [hiddenComment, costComment, olderComment])
      (memOf [⟨"<!--ic-->Cost: $20", "new", 1, false⟩])
      [hiddenComment, costComment, olderComment] ⟨"<!--ic-->Cost: $20", "new", 1, false⟩ 3
      rfl rfl (Or.inl (by decide)) hdelete (by rfl)).1⟩

/-- Witness of C10: deleting fails on the comment "c0"; the comment before it
stays deleted, the one after it is not touched, nothing is created. -/
theorem DeleteAndNewComment_stops_at_first_failure_witness :
    icHandler.PlatformHandler.CallFindMatchingComments
        (memBroken [costComment, olderComment, hiddenComment]) icHandler.Tag =
        (.ok ([costComment] ++ olderComment :: [hiddenComment]),
          memBroken [costComment, olderComment, hiddenComment]) ∧
      (∀ p u q, [costComment] = p ++ u :: q →
        (icHandler.PlatformHandler.CallDeleteComment
          (stateAfter icHandler.PlatformHandler.CallDeleteComment
            (memBroken [costComment, olderComment, hiddenComment]) p) u).1 = none) ∧
      icHandler.PlatformHandler.CallDeleteComment
          (stateAfter icHandler.PlatformHandler.CallDeleteComment
            (memBroken [costComment, olderComment, hiddenComment]) [costComment])
          olderComment =
        (some (.plain "delete failed"), memBroken [olderComment, hiddenComment]) ∧
      DeleteAndNewComment icHandler false "Cost: $20"
          (memBroken [costComment, olderComment, hiddenComment]) =
        ⟨(false, newPlatformError (some (.plain "delete failed"))),
          memBroken [olderComment, hiddenComment],
          [.findMatching "ic", .delete costComment, .delete olderComment]⟩ :=
  have hpre : ∀ p u q, [costComment] = p ++ u :: q →
      (icHandler.PlatformHandler.CallDeleteComment
        (stateAfter icHandler.PlatformHandler.CallDeleteComment
          (memBroken [costComment, olderComment, hiddenComment]) p) u).1 = none := by
    intro p u q hs
    rcases p with _ | ⟨a, p⟩
    · simp only [List.nil_append, List.cons.injEq] at hs
      obtain ⟨rfl, _⟩ := hs
      decide
    · simp at hs
  ⟨rfl, hpre, by rfl,
    (DeleteAndNewComment_stops_at_first_failure icHandler false "Cost: $20"
      (memBroken [costComment, olderComment, hiddenComment])
      (memBroken [costComment, olderComment, hiddenComment])
      (memBroken [olderComment, hiddenComment])
      [costComment] [hiddenComment] olderComment
      (.plain "delete failed") rfl hpre (by rfl)).1⟩

end Delete

/-! ## CommentWithBehavior -/

section Behavior

variable {σ κ : Type} [Comment κ]

/-- C5: for every behavior string other than exactly "update", "new",
"hide-and-new" and "delete-and-new", `CommentWithBehavior` returns
`posted = false` with the error "Unable to perform unknown behavior: " followed
by the behavior, makes no call of any `PlatformHandler` method
(`AddMarkdownTag` and the search included) and leaves the platform state as it
was, for every `skipNoDiff` and body. -/
theorem CommentWithBehavior_unknown (sortSlice : SliceSort κ) (h : CommentHandler σ κ)
    (skipNoDiff : Bool) (behavior body : String) (s : σ)
    (hupdate : behavior ≠ "update") (hnew : behavior ≠ "new")
    (hhide : behavior ≠ "hide-and-new") (hdelete : behavior ≠ "delete-and-new") :
    CommentWithBehavior sortSlice h skipNoDiff behavior body s =
        ⟨(false, some (.plain ("Unable to perform unknown behavior: " ++ behavior))), s, []⟩ ∧
      ∃ err, (CommentWithBehavior sortSlice h skipNoDiff behavior body s).ret = (false, some err) ∧
        err.Error = "Unable to perform unknown behavior: " ++ behavior := by
  have hrun : CommentWithBehavior sortSlice h skipNoDiff behavior body s =
      ⟨(false, some (.plain ("Unable to perform unknown behavior: " ++ behavior))), s, []⟩ := by
    simp [CommentWithBehavior, hupdate, hnew, hhide, hdelete]
  exact ⟨hrun, .plain ("Unable to perform unknown behavior: " ++ behavior), by rw [hrun], rfl⟩

/-- Witness of C5: the behavior "Update" is not "update". -/
theorem CommentWithBehavior_unknown_witness :
    "Update" ≠ "update" ∧ "Update" ≠ "new" ∧ "Update" ≠ "hide-and-new" ∧
      "Update" ≠ "delete-and-new" ∧
      CommentWithBehavior insertionSortSlice icHandler false "Update" "Cost: $10"
          (memOf [costComment]) =
        ⟨(false, some (.plain "Unable to perform unknown behavior: Update")),
          memOf [costComment], []⟩ :=
  ⟨by decide, by decide, by decide, by decide,
    (CommentWithBehavior_unknown insertionSortSlice icHandler false "Update" "Cost: $10"
      (memOf [costComment]) (by decide) (by decide) (by decide) (by decide)).1⟩

/-- C12: for the behavior "new", whatever `skipNoDiff` and the platform state
are, `CommentWithBehavior` tags the body and issues exactly one `Call*` call, a
create with the tagged body (no search, update, delete or hide); the result is
`(true, nil)` when the create call succeeds and `(false, err)` with `err` the
result of `newPlatformError` when it fails; the outcome is the same for the
other value of `skipNoDiff`. -/
theorem CommentWithBehavior_new (sortSlice : SliceSort κ) (h : CommentHandler σ κ)
    (skipNoDiff : Bool) (body : String) (s : σ) :
    (CommentWithBehavior sortSlice h skipNoDiff "new" body s).calls =
        [.addMarkdownTag body h.Tag, .create (h.PlatformHandler.AddMarkdownTag body h.Tag)] ∧
      (CommentWithBehavior sortSlice h skipNoDiff "new" body s).calls.filter Call.isCapability =
        [.create (h.PlatformHandler.AddMarkdownTag body h.Tag)] ∧
      (CommentWithBehavior sortSlice h skipNoDiff "new" body s).state =
        (h.PlatformHandler.CallCreateComment s
          (h.PlatformHandler.AddMarkdownTag body h.Tag)).2 ∧
      (CommentWithBehavior sortSlice h skipNoDiff "new" body s).ret =
        (match (h.PlatformHandler.CallCreateComment s
            (h.PlatformHandler.AddMarkdownTag body h.Tag)).1 with
          | .ok _ => (true, none)
          | .error err => (false, newPlatformError (some err))) ∧
      CommentWithBehavior sortSlice h skipNoDiff "new" body s =
        CommentWithBehavior sortSlice h (!skipNoDiff) "new" body s := by
  have h1 : ("new" : String) ≠ "update" := by decide
  simp only [CommentWithBehavior, h1, if_false, if_true, NewComment]
  rcases hc : h.PlatformHandler.CallCreateComment s
    (h.PlatformHandler.AddMarkdownTag body h.Tag) with ⟨_ | _, s2⟩ <;>
    simp [newPlatformError, Call.isCapability]

end Behavior

/-! ## Tagged bodies and call order -/

section Order

variable {σ κ : Type} [Comment κ]

/-- C13: for every behavior, `skipNoDiff`, body and platform, every create call
and every update call made by `CommentWithBehavior` has as its body argument
exactly `AddMarkdownTag(body, h.Tag)`. -/
theorem CommentWithBehavior_tagged_bodies (sortSlice : SliceSort κ) (h : CommentHandler σ κ)
    (skipNoDiff : Bool) (behavior body : String) (s : σ) :
    (∀ b, Call.create b ∈ (CommentWithBehavior sortSlice h skipNoDiff behavior body s).calls →
        b = h.PlatformHandler.AddMarkdownTag body h.Tag) ∧
      ∀ m b, Call.update m b ∈
          (CommentWithBehavior sortSlice h skipNoDiff behavior body s).calls →
        b = h.PlatformHandler.AddMarkdownTag body h.Tag :=
  ⟨fun _ hb => CommentWithBehavior_carries sortSlice h skipNoDiff behavior body s _ hb,
    fun _ _ hb => CommentWithBehavior_carries sortSlice h skipNoDiff behavior body s _ hb⟩

/-- C17: for the behaviors "update", "hide-and-new" and "delete-and-new" and
every platform, the invocation makes exactly one search call, with the handler
tag as argument; no `Call*` call comes before it, so it precedes every update,
create, hide and delete call; and the trace splits into a front part without
create call and a back part without hide or delete call, so every hide or
delete call precedes the create call. -/
theorem CommentWithBehavior_call_order (sortSlice : SliceSort κ) (h : CommentHandler σ κ)
    (skipNoDiff : Bool) (behavior body : String) (s : σ)
    (hbehavior : behavior = "update" ∨ behavior = "hide-and-new" ∨
      behavior = "delete-and-new") :
    (CommentWithBehavior sortSlice h skipNoDiff behavior body s).calls.filter Call.isFind =
        [.findMatching h.Tag] ∧
      (∃ pre post, (CommentWithBehavior sortSlice h skipNoDiff behavior body s).calls =
          pre ++ .findMatching h.Tag :: post ∧
        (∀ c ∈ pre, c.isCapability = false) ∧ ∀ c ∈ post, c.isFind = false) ∧
      ∃ front back, (CommentWithBehavior sortSlice h skipNoDiff behavior body s).calls =
          front ++ back ∧
        (∀ c ∈ front, c.isCreate = false) ∧
        ∀ c ∈ back, c.isHide = false ∧ c.isDelete = false := by
  rcases hbehavior with rfl | rfl | rfl
  · obtain ⟨tail, hcalls, htail⟩ := UpdateComment_calls sortSlice h skipNoDiff body s
    rw [CommentWithBehavior_update, hcalls]
    refine ⟨?_, ⟨[.addMarkdownTag body h.Tag], tail, rfl, ?_, ?_⟩,
      ⟨[.addMarkdownTag body h.Tag, .findMatching h.Tag], tail, rfl, ?_, ?_⟩⟩ <;>
      rcases htail with rfl | ⟨m, rfl⟩ | rfl <;>
      simp [Call.isFind, Call.isCapability, Call.isCreate, Call.isHide, Call.isDelete]
  · obtain ⟨l, tail, hcalls, htail⟩ := HideAndNewComment_calls h skipNoDiff body s
    rw [CommentWithBehavior_hide, hcalls]
    refine ⟨?_, ⟨[], l.map Call.hide ++ tail, rfl, ?_, ?_⟩,
      ⟨.findMatching h.Tag :: l.map Call.hide, tail, rfl, ?_, ?_⟩⟩ <;>
      rcases htail with rfl | rfl <;>
      (simp [Call.isFind, Call.isCapability, Call.isCreate, Call.isHide, Call.isDelete,
        List.filter_cons, List.filter_map, Function.comp_def]
       try (rintro c (⟨x, -, rfl⟩ | rfl | rfl) <;> simp))
  · obtain ⟨l, tail, hcalls, htail⟩ := DeleteAndNewComment_calls h skipNoDiff body s
    rw [CommentWithBehavior_delete, hcalls]
    refine ⟨?_, ⟨[], l.map Call.delete ++ tail, rfl, ?_, ?_⟩,
      ⟨.findMatching h.Tag :: l.map Call.delete, tail, rfl, ?_, ?_⟩⟩ <;>
      rcases htail with rfl | rfl <;>
      (simp [Call.isFind, Call.isCapability, Call.isCreate, Call.isHide, Call.isDelete,
        List.filter_cons, List.filter_map, Function.comp_def]
       try (rintro c (⟨x, -, rfl⟩ | rfl | rfl) <;> simp))

/-- Witness of C17: behavior "hide-and-new" on one hidden and two visible
comments. -/
theorem CommentWithBehavior_call_order_witness :
    (("hide-and-new" : String) = "update" ∨ ("hide-and-new" : String) = "hide-and-new" ∨
        ("hide-and-new" : String) = "delete-and-new") ∧
      (CommentWithBehavior insertionSortSlice icHandler true "hide-and-new" "Cost: $20"
        (memOf [hiddenComment, costComment, olderComment])).calls.filter Call.isFind =
        [.findMatching "ic"] ∧
      (CommentWithBehavior insertionSortSlice icHandler true "hide-and-new" "Cost: $20"
        (memOf [hiddenComment, costComment, olderComment])).calls =
        [.findMatching "ic", .hide costComment, .hide olderComment,
         .addMarkdownTag "Cost: $20" "ic", .create "<!--ic-->Cost: $20"] :=
  ⟨Or.inr (Or.inl rfl),
    (CommentWithBehavior_call_order insertionSortSlice icHandler true "hide-and-new"
      "Cost: $20" (memOf [hiddenComment, costComment, olderComment])
      (Or.inr (Or.inl rfl))).1,
    by decide⟩

end Order

/-! ## Order of the matches -/

section Independence

variable {σ κ : Type} [Comment κ]

/-- C18: let the search return, from two platform states, two lists that are
rearrangements of each other and on which `Less` is a strict total order. With
a sorting routine that meets the contract of `sort.Slice`,
`LatestMatchingComment` returns the same comment for both, and `UpdateComment`
makes the same calls (same target, same body) for both; when moreover the
platform answers each call alike after both searches, `UpdateComment` returns
the same result. -/
theorem UpdateComment_order_independent (sortSlice : SliceSort κ) (h : CommentHandler σ κ)
    (skipNoDiff : Bool) (body : String) (s sB s1 s1B : σ) (cs csB : List κ)
    (hsort : SortsSlices sortSlice)
    (hfind : h.PlatformHandler.CallFindMatchingComments s h.Tag = (.ok cs, s1))
    (hfindB : h.PlatformHandler.CallFindMatchingComments sB h.Tag = (.ok csB, s1B))
    (hperm : cs.Perm csB)
    (hord : StrictTotalOn Comment.Less cs)
    (hsame : ∀ c : Call κ,
      (h.PlatformHandler.respond s1 c).1 = (h.PlatformHandler.respond s1B c).1) :
    (LatestMatchingComment sortSlice h s).ret = (LatestMatchingComment sortSlice h sB).ret ∧
      (UpdateComment sortSlice h skipNoDiff body s).calls =
        (UpdateComment sortSlice h skipNoDiff body sB).calls ∧
      (UpdateComment sortSlice h skipNoDiff body s).ret =
        (UpdateComment sortSlice h skipNoDiff body sB).ret := by
  have hlat := latest_eq_of_perm sortSlice hsort cs csB hperm hord
  have hL := LatestMatchingComment_ok sortSlice h s s1 cs hfind
  have hLB := LatestMatchingComment_ok sortSlice h sB s1B csB hfindB
  refine ⟨by rw [hL, hLB, hlat], ?_⟩
  simp only [UpdateComment, hL, hLB, hlat]
  cases hlast : (sortSlice Comment.Less csB).getLast? with
  | none =>
    cases skipNoDiff with
    | true => simp
    | false =>
      have hc := hsame (.create (h.PlatformHandler.AddMarkdownTag body h.Tag))
      simp only [PlatformHandler.respond] at hc
      rcases h1 : h.PlatformHandler.CallCreateComment s1
          (h.PlatformHandler.AddMarkdownTag body h.Tag) with ⟨e | c, s2⟩ <;>
        rcases h2 : h.PlatformHandler.CallCreateComment s1B
          (h.PlatformHandler.AddMarkdownTag body h.Tag) with ⟨e2 | c2, s2B⟩ <;>
        simp [h1, h2] at hc ⊢
      rw [hc]
  | some m =>
    by_cases hb : Comment.Body m = h.PlatformHandler.AddMarkdownTag body h.Tag
    · simp [hb]
    · have hc := hsame (.update m (h.PlatformHandler.AddMarkdownTag body h.Tag))
      simp only [PlatformHandler.respond] at hc
      rcases h1 : h.PlatformHandler.CallUpdateComment s1 m
          (h.PlatformHandler.AddMarkdownTag body h.Tag) with ⟨_ | e, s2⟩ <;>
        rcases h2 : h.PlatformHandler.CallUpdateComment s1B m
          (h.PlatformHandler.AddMarkdownTag body h.Tag) with ⟨_ | e2, s2B⟩ <;>
        simp [h1, h2, hb] at hc ⊢
      rw [hc]

/-- The in-memory platform answers alike in two states that differ only in
their comments. -/
theorem mem_respond_same (a b : Mem) (hb : a.broken = b.broken)
    (hf : a.findFails = b.findFails) (hc : a.createFails = b.createFails) (c : Call PRComment) :
    (memPlatform.respond a c).1 = (memPlatform.respond b c).1 := by
  cases c <;> simp only [PlatformHandler.respond, memPlatform, hb, hf, hc] <;>
    split_ifs <;> rfl

/-- Witness of C18: the comments "c1" and "c0" returned newest first and oldest
first; the latest is "c1" both times and the same update call is made. -/
theorem UpdateComment_order_independent_witness :
    SortsSlices (insertionSortSlice : SliceSort PRComment) ∧
      icHandler.PlatformHandler.CallFindMatchingComments (memOf [costComment, olderComment])
        icHandler.Tag = (.ok [costComment, olderComment], memOf [costComment, olderComment]) ∧
      icHandler.PlatformHandler.CallFindMatchingComments (memOf [olderComment, costComment])
        icHandler.Tag = (.ok [olderComment, costComment], memOf [olderComment, costComment]) ∧
      [costComment, olderComment].Perm [olderComment, costComment] ∧
      StrictTotalOn (Comment.Less : PRComment → PRComment → Bool) [costComment, olderComment] ∧
      (∀ c : Call PRComment,
        (icHandler.PlatformHandler.respond (memOf [costComment, olderComment]) c).1 =
          (icHandler.PlatformHandler.respond (memOf [olderComment, costComment]) c).1) ∧
      (LatestMatchingComment insertionSortSlice icHandler
          (memOf [costComment, olderComment])).ret =
        (LatestMatchingComment insertionSortSlice icHandler
          (memOf [olderComment, costComment])).ret ∧
      (UpdateComment insertionSortSlice icHandler false "Cost: $20"
          (memOf [costComment, olderComment])).calls =
        (UpdateComment insertionSortSlice icHandler false "Cost: $20"
          (memOf [olderComment, costComment])).calls ∧
      (UpdateComment insertionSortSlice icHandler false "Cost: $20"
          (memOf [olderComment, costComment])).calls =
        [.addMarkdownTag "Cost: $20" "ic", .findMatching "ic",
         .update costComment "<!--ic-->Cost: $20"] :=
  have hthm := UpdateComment_order_independent insertionSortSlice icHandler false "Cost: $20"
    (memOf [costComment, olderComment]) (memOf [olderComment, costComment])
    (memOf [costComment, olderComment]) (memOf [olderComment, costComment])
    [costComment, olderComment] [olderComment, costComment]
    sortsSlices_insertionSortSlice rfl rfl (List.Perm.swap olderComment costComment [])
    strictTotalOn_example (mem_respond_same _ _ rfl rfl rfl)
  ⟨sortsSlices_insertionSortSlice, rfl, rfl, List.Perm.swap olderComment costComment [],
    strictTotalOn_example, mem_respond_same _ _ rfl rfl rfl, hthm.1, hthm.2.1, by decide⟩

end Independence

/-! ## Idempotence of update -/

section Idempotence

/-- C19: on the list platform (the search returns the current list, a create
appends a comment greater than all others, an update replaces the body of its
target and keeps the order), with a sorting routine that meets the contract of
`sort.Slice`, for every starting list, tagging function, tag and body: a first
`UpdateComment(false, body)` succeeds, and a second `UpdateComment` with the
same body, whatever `skipNoDiff`, returns `(false, nil)`, makes no update or
create call (only the tagging and the search) and leaves the platform state
unchanged. -/
theorem UpdateComment_idempotent (sortSlice : SliceSort ListedComment)
    (addTag : String → String → String) (tag body : String) (start : List String)
    (skipNoDiff : Bool) (hsort : SortsSlices sortSlice) :
    (UpdateComment sortSlice (listHandler addTag tag) false body start).ret.2 = none ∧
      UpdateComment sortSlice (listHandler addTag tag) skipNoDiff body
          (UpdateComment sortSlice (listHandler addTag tag) false body start).state =
        ⟨(false, none), (UpdateComment sortSlice (listHandler addTag tag) false body start).state,
          [.addMarkdownTag body tag, .findMatching tag]⟩ ∧
      ∀ c ∈ (UpdateComment sortSlice (listHandler addTag tag) skipNoDiff body
          (UpdateComment sortSlice (listHandler addTag tag) false body start).state).calls,
        c.isUpdate = false ∧ c.isCreate = false := by
  obtain ⟨hok, init, hstate⟩ := listHandler_first sortSlice hsort addTag tag body start
  have hsecond := listHandler_noop sortSlice hsort addTag tag body skipNoDiff init
  rw [hstate]
  refine ⟨hok, hsecond, ?_⟩
  rw [hsecond]
  simp [Call.isUpdate, Call.isCreate]

/-- Witness of C19: two comments, then the same body posted twice. -/
theorem UpdateComment_idempotent_witness :
    SortsSlices (insertionSortSlice : SliceSort ListedComment) ∧
      UpdateComment insertionSortSlice
          (listHandler (fun s tag => "<!--" ++ tag ++ "-->" ++ s) "ic") false "Cost: $20"
          ["<!--ic-->Cost: $5", "<!--ic-->Cost: $10"] =
        ⟨(true, none), ["<!--ic-->Cost: $5", "<!--ic-->Cost: $20"],
          [.addMarkdownTag "Cost: $20" "ic", .findMatching "ic",
           .update ⟨1, "<!--ic-->Cost: $10"⟩ "<!--ic-->Cost: $20"]⟩ ∧
      UpdateComment insertionSortSlice
          (listHandler (fun s tag => "<!--" ++ tag ++ "-->" ++ s) "ic") true "Cost: $20"
          (UpdateComment insertionSortSlice
            (listHandler (fun s tag => "<!--" ++ tag ++ "-->" ++ s) "ic") false "Cost: $20"
            ["<!--ic-->Cost: $5", "<!--ic-->Cost: $10"]).state =
        ⟨(false, none),
          (UpdateComment insertionSortSlice
            (listHandler (fun s tag => "<!--" ++ tag ++ "-->" ++ s) "ic") false "Cost: $20"
            ["<!--ic-->Cost: $5", "<!--ic-->Cost: $10"]).state,
          [.addMarkdownTag "Cost: $20" "ic", .findMatching "ic"]⟩ :=
  ⟨sortsSlices_insertionSortSlice, by rfl,
    (UpdateComment_idempotent insertionSortSlice (fun s tag => "<!--" ++ tag ++ "-->" ++ s)
      "ic" "Cost: $20" ["<!--ic-->Cost: $5", "<!--ic-->Cost: $10"] true
      sortsSlices_insertionSortSlice).2.1⟩

end Idempotence

/-! ## Fail-fast -/

section FailFastSection

variable {σ κ : Type} [Comment κ]

/-- C14: the platform being deterministic, the answer it gave to a call of an
invocation is the answer it gives when the calls before it are replayed from
the initial state. For every behavior (an unknown one makes no call), if the
call `c` of the invocation was answered with the error `err`, then `c` is the
last call of the invocation (nothing is retried, nothing follows) and
`CommentWithBehavior` returns `(false, newPlatformError err)`; the platform is
left in the state the failing call left it in. -/
theorem CommentWithBehavior_fail_fast (sortSlice : SliceSort κ) (h : CommentHandler σ κ)
    (skipNoDiff : Bool) (behavior body : String) (s : σ) (pre post : List (Call κ))
    (c : Call κ) (err : GoError)
    (hcalls : (CommentWithBehavior sortSlice h skipNoDiff behavior body s).calls =
      pre ++ c :: post)
    (hfail : (h.PlatformHandler.respond (stateAfterCalls h.PlatformHandler s pre) c).1 =
      some err) :
    post = [] ∧
      (CommentWithBehavior sortSlice h skipNoDiff behavior body s).ret =
        (false, newPlatformError (some err)) ∧
      (CommentWithBehavior sortSlice h skipNoDiff behavior body s).state =
        (h.PlatformHandler.respond (stateAfterCalls h.PlatformHandler s pre) c).2 := by
  by_cases hvalid : behavior = "update" ∨ behavior = "new" ∨ behavior = "hide-and-new" ∨
      behavior = "delete-and-new"
  · obtain ⟨⟨hstate, hlast⟩, hposted⟩ :=
      CommentWithBehavior_failFast sortSlice h skipNoDiff behavior body s hvalid
    rw [hcalls, answers_append, answers, hfail] at hlast
    obtain ⟨hafter, herr⟩ := failsOnlyLast_failure _ err _ _ hlast
    have hpost : post = [] := by
      have hlen := answers_length h.PlatformHandler post
        (h.PlatformHandler.respond (stateAfterCalls h.PlatformHandler s pre) c).2
      rw [hafter] at hlen
      exact List.length_eq_zero.mp hlen.symm
    refine ⟨hpost, Prod.ext (hposted ?_) herr, ?_⟩
    · rw [herr]
      simp [newPlatformError]
    · rw [hstate, hcalls, hpost, stateAfterCalls_append]
      rfl
  · have hnone := CommentWithBehavior_invalid_calls sortSlice h skipNoDiff behavior body s hvalid
    rw [hnone] at hcalls
    simp at hcalls

/-- Witness of C14: with behavior "hide-and-new", hiding is not supported for
the comment "c0"; the failing hide call is the third and last call. -/
theorem CommentWithBehavior_fail_fast_witness :
    (CommentWithBehavior insertionSortSlice icHandler false "hide-and-new" "Cost: $20"
        (memBroken [costComment, hiddenComment, olderComment])).calls =
        [.findMatching "ic", .hide costComment] ++ .hide olderComment :: [] ∧
      (icHandler.PlatformHandler.respond
        (stateAfterCalls icHandler.PlatformHandler
          (memBroken [costComment, hiddenComment, olderComment])
          [.findMatching "ic", .hide costComment])
        (.hide olderComment)).1 = some (.plain "hide not supported") ∧
      (CommentWithBehavior insertionSortSlice icHandler false "hide-and-new" "Cost: $20"
        (memBroken [costComment, hiddenComment, olderComment])).ret =
        (false, newPlatformError (some (.plain "hide not supported"))) :=
  ⟨by decide, by decide,
    (CommentWithBehavior_fail_fast insertionSortSlice icHandler false "hide-and-new"
      "Cost: $20" (memBroken [costComment, hiddenComment, olderComment])
      [.findMatching "ic", .hide costComment] [] (.hide olderComment)
      (.plain "hide not supported") (by decide) (by decide)).2.1⟩

end FailFastSection

/-! ## Meaning of the posted flag -/

section Posted

variable {σ κ : Type} [Comment κ]

/-- C21: for every behavior, `skipNoDiff`, body and platform, an invocation
that made calls ends on a `Call*` call, so its last capability call is its last
call; `CommentWithBehavior` returns `posted = true` exactly when that last call
is a create or update call that the platform answered without error (the answer
being the one the platform gives when the calls before are replayed from the
initial state); then the error returned is nil; and whenever it returns
`(false, nil)` the trace holds no create, update, delete or hide call. -/
theorem CommentWithBehavior_posted (sortSlice : SliceSort κ) (h : CommentHandler σ κ)
    (skipNoDiff : Bool) (behavior body : String) (s : σ) :
    (∀ d, (CommentWithBehavior sortSlice h skipNoDiff behavior body s).calls.getLast? = some d →
        d.isCapability = true) ∧
      ((CommentWithBehavior sortSlice h skipNoDiff behavior body s).ret.1 = true ↔
        ∃ pre c, (CommentWithBehavior sortSlice h skipNoDiff behavior body s).calls =
            pre ++ [c] ∧
          (c.isCreate = true ∨ c.isUpdate = true) ∧
          (h.PlatformHandler.respond (stateAfterCalls h.PlatformHandler s pre) c).1 = none) ∧
      ((CommentWithBehavior sortSlice h skipNoDiff behavior body s).ret.1 = true →
        (CommentWithBehavior sortSlice h skipNoDiff behavior body s).ret.2 = none) ∧
      ((CommentWithBehavior sortSlice h skipNoDiff behavior body s).ret = (false, none) →
        ∀ c ∈ (CommentWithBehavior sortSlice h skipNoDiff behavior body s).calls,
          c.isCreate = false ∧ c.isUpdate = false ∧ c.isDelete = false ∧ c.isHide = false) := by
  rcases CommentWithBehavior_summary sortSlice h skipNoDiff behavior body s with
    ⟨hfalse, hncu, hquiet, hlast⟩ | ⟨pre, c, hcalls, hc, hret⟩
  · refine ⟨hlast, ⟨fun ht => ?_, fun hex => ?_⟩, fun ht => ?_, fun hr c hcm => ?_⟩
    · rw [hfalse] at ht
      exact absurd ht (by decide)
    · obtain ⟨pre, c, hsplit, hcu, -⟩ := hex
      have hmem : c ∈ (CommentWithBehavior sortSlice h skipNoDiff behavior body s).calls := by
        rw [hsplit]
        simp
      have := hncu c hmem
      rcases hcu with hcr | hup
      · rw [this.1] at hcr
        exact absurd hcr (by decide)
      · rw [this.2] at hup
        exact absurd hup (by decide)
    · rw [hfalse] at ht
      exact absurd ht (by decide)
    · have hnone : (CommentWithBehavior sortSlice h skipNoDiff behavior body s).ret.2 = none := by
        rw [hr]
      exact ⟨(hncu c hcm).1, (hncu c hcm).2, (hquiet hnone c hcm).1, (hquiet hnone c hcm).2⟩
  · have hvalid : behavior = "update" ∨ behavior = "new" ∨ behavior = "hide-and-new" ∨
        behavior = "delete-and-new" := by
      by_contra hinv
      have hnil := CommentWithBehavior_invalid_calls sortSlice h skipNoDiff behavior body s hinv
      rw [hnil] at hcalls
      simp at hcalls
    obtain ⟨⟨-, hfo⟩, -⟩ :=
      CommentWithBehavior_failFast sortSlice h skipNoDiff behavior body s hvalid
    rw [hcalls, answers_append] at hfo
    have herr := failsOnlyLast_last _ _ _ hfo
    have hcap : c.isCapability = true := by
      rcases hc with hcr | hup
      · cases c <;> simp [Call.isCreate, Call.isCapability] at hcr ⊢
      · cases c <;> simp [Call.isUpdate, Call.isCapability] at hup ⊢
    refine ⟨fun d hd => ?_, ⟨fun ht => ?_, fun hex => ?_⟩, fun ht => ?_, fun hr => ?_⟩
    · rw [hcalls, List.getLast?_concat] at hd
      rw [← Option.some.inj hd]
      exact hcap
    · rcases hret with hok | ⟨hf, -⟩
      · refine ⟨pre, c, hcalls, hc, ?_⟩
        rw [hok] at herr
        exact (newPlatformError_eq_none _).mp herr.symm
      · rw [hf] at ht
        exact absurd ht (by decide)
    · obtain ⟨pre2, c2, hsplit, -, hans⟩ := hex
      rw [hcalls] at hsplit
      obtain ⟨hpre, hc2⟩ := List.append_inj' hsplit rfl
      rw [← hpre, ← List.singleton_inj.mp hc2] at hans
      rw [hans] at herr
      rcases hret with hok | ⟨-, hne⟩
      · rw [hok]
      · exact absurd herr hne
    · rcases hret with hok | ⟨hf, -⟩
      · rw [hok]
      · rw [hf] at ht
        exact absurd ht (by decide)
    · rcases hret with hok | ⟨-, hne⟩
      · rw [hok] at hr
        simp at hr
      · rw [hr] at hne
        exact absurd rfl hne

end Posted

/-! ## Cleanup behaviors on a pull request without comments -/

section FirstComment

variable {σ κ : Type} [Comment κ]

/-- C11: when the search succeeds with an empty list and `skipNoDiff` is true,
`HideAndNewComment` and `DeleteAndNewComment` each return `(false, nil)` after
the search alone: no hide, delete or create call is issued and the platform
stays in the state the search left it in. -/
theorem cleanup_skips_first (h : CommentHandler σ κ) (body : String) (s s1 : σ)
    (hfind : h.PlatformHandler.CallFindMatchingComments s h.Tag = (.ok [], s1)) :
    HideAndNewComment h true body s = ⟨(false, none), s1, [.findMatching h.Tag]⟩ ∧
      DeleteAndNewComment h true body s = ⟨(false, none), s1, [.findMatching h.Tag]⟩ ∧
      (∀ c ∈ (HideAndNewComment h true body s).calls,
        c.isHide = false ∧ c.isDelete = false ∧ c.isCreate = false) ∧
      ∀ c ∈ (DeleteAndNewComment h true body s).calls,
        c.isHide = false ∧ c.isDelete = false ∧ c.isCreate = false := by
  have hhide : HideAndNewComment h true body s = ⟨(false, none), s1, [.findMatching h.Tag]⟩ := by
    simp [HideAndNewComment, matchingComments_ok h s s1 [] hfind]
  have hdelete : DeleteAndNewComment h true body s =
      ⟨(false, none), s1, [.findMatching h.Tag]⟩ := by
    simp [DeleteAndNewComment, matchingComments_ok h s s1 [] hfind]
  refine ⟨hhide, hdelete, ?_, ?_⟩
  · simp [hhide, Call.isHide, Call.isDelete, Call.isCreate]
  · simp [hdelete, Call.isHide, Call.isDelete, Call.isCreate]

/-- Witness of C11: no comment yet on the in-memory platform. -/
theorem cleanup_skips_first_witness :
    icHandler.PlatformHandler.CallFindMatchingComments (memOf []) icHandler.Tag =
        (.ok [], memOf []) ∧
      HideAndNewComment icHandler true "Cost: $10" (memOf []) =
        ⟨(false, none), memOf [], [.findMatching "ic"]⟩ ∧
      DeleteAndNewComment icHandler true "Cost: $10" (memOf []) =
        ⟨(false, none), memOf [], [.findMatching "ic"]⟩ :=
  ⟨rfl, (cleanup_skips_first icHandler "Cost: $10" (memOf []) (memOf []) rfl).1,
    (cleanup_skips_first icHandler "Cost: $10" (memOf []) (memOf []) rfl).2.1⟩

end FirstComment

/-! ## newPlatformError and NewCommentHandler -/

section Construction

variable {σ κ : Type}

/-- C15: `newPlatformError` returns nil for a nil error; for any other error
`e` it returns an error that wraps `e` (its cause is `e`) and whose message is
the line "The pull request comment was generated successfully but could not be
posted:", a newline, the message of `e`, two newlines, and the line "See
https://infracost.io/docs/troubleshooting/#5-posting-comments for help.". -/
theorem newPlatformError_wraps :
    newPlatformError none = none ∧
      ∀ e : GoError, ∃ w, newPlatformError (some e) = some w ∧ w.Unwrap = some e ∧
        w.Error =
          "The pull request comment was generated successfully but could not be posted:\n" ++
            e.Error ++
            "\n\nSee https://infracost.io/docs/troubleshooting/#5-posting-comments for help." := by
  refine ⟨rfl, fun e => ⟨_, rfl, rfl, ?_⟩⟩
  simp only [GoError.Error, String.append_assoc]
  rfl

/-- C16: the handler built by `NewCommentHandler` holds the given platform
handler; its tag is "infracost-comment" when the given tag is empty and the
given tag otherwise, so it is never empty. -/
theorem NewCommentHandler_tag (p : PlatformHandler σ κ) (t : String) :
    (NewCommentHandler p t).PlatformHandler = p ∧
      (t = "" → (NewCommentHandler p t).Tag = "infracost-comment") ∧
      (t ≠ "" → (NewCommentHandler p t).Tag = t) ∧
      (NewCommentHandler p t).Tag ≠ "" := by
  refine ⟨rfl, fun ht => ?_, fun ht => ?_, ?_⟩
  · simp [NewCommentHandler, ht, defaultTag]
  · simp [NewCommentHandler, ht]
  · by_cases ht : t = ""
    · simp [NewCommentHandler, ht, defaultTag]
    · simp [NewCommentHandler, ht]

end Construction

/-! ## IBM instance plan names -/

namespace Ibm

/-- C23: for every architecture string `a`, the plan name of `parseArch a` is
"gen2-instance" when `a` is "amd64", "gen2-zvsi-instance" when `a` is "s390x",
and "unknown" for every other string, which `parseArch` maps to -1, a value
that is neither `x86` nor `s390x`. -/
theorem parseArch_toPlanName (a : String) :
    (parseArch a).toPlanName =
        (if a = "amd64" then "gen2-instance"
         else if a = "s390x" then "gen2-zvsi-instance"
         else "unknown") ∧
      parseArch a =
        (if a = "amd64" then x86 else if a = "s390x" then s390x else ((-1 : Int) : ArchType)) ∧
      ((-1 : Int) : ArchType) ≠ x86 ∧ ((-1 : Int) : ArchType) ≠ s390x := by
  have hx : ((-1 : Int) : ArchType) ≠ x86 := by decide
  have hs : ((-1 : Int) : ArchType) ≠ s390x := by decide
  have hsx : s390x ≠ x86 := by decide
  refine ⟨?_, rfl, hx, hs⟩
  by_cases h1 : a = "amd64"
  · simp [parseArch, ArchType.toPlanName, h1]
  · by_cases h2 : a = "s390x"
    · have h3 : ("s390x" : String) ≠ "amd64" := by decide
      simp [parseArch, ArchType.toPlanName, h2, h3, hsx]
    · simp [parseArch, ArchType.toPlanName, h1, h2, hx, hs]

end Ibm

end Infracost
